import Mathlib

/-!
# Verification of the cards_match round scorer and round lifecycle

This file is a shallow embedding of the scoring and round-lifecycle logic of
the cards_match repository, together with proofs about it.

* The word scorers `calculateMatchRoundScores` and `calculateUnmatchRoundScores`
  are translated from `src/hooks/useGame.js` (lines 1086-1225).  JS objects
  used as dictionaries are modelled as association lists in property-insertion
  order; in-place mutation of the `scores` object is modelled by explicit state
  passing.
* JS strings are Lean `String`s; `String.prototype.toLowerCase` and
  `String.prototype.trim` are modelled by `jsToLower` and `jsTrim` below
  (ASCII case mapping and the four ASCII whitespace characters, which is the
  fragment of the JS semantics these inputs exercise).
* The round-close flow (`pages/api/games/join.ts` end-round handler together
  with `calculateRoundScores` and `saveRoundScores` from
  `src/hooks/useGame.js`) is modelled as a state-transition function
  `endRoundOp` on a `GameState` record holding the database rows it touches.
  Database effects are modelled faithfully: the `round_scores` table's
  `UNIQUE(round_id, player_id)` constraint silently rejects duplicate inserts
  (the source never checks the returned `error`), the `rounds` table's
  `UNIQUE(game_id, round_number)` constraint makes a duplicate round insert
  fail (the source logs the error and skips the `current_round` update), and
  a thrown persistence error aborts the rest of the flow (modelled by the
  `failAt` parameter).
* Round-type selection and topic drawing are translated from
  `pages/api/games/join.ts`, `pages/api/games/start-round.ts`,
  `supabase/functions/handle-game-logic/index.js` and `src/hooks/useGame.js`.
-/

set_option maxHeartbeats 1000000

namespace CardsMatch

/-! ## Model of the JS string operations used by the scorer -/

/-- Model of JS `String.prototype.toLowerCase` on a single character
(ASCII case mapping). -/
def charToLower (c : Char) : Char :=
  if 'A' ≤ c ∧ c ≤ 'Z' then Char.ofNat (c.toNat + 32) else c

/-- The whitespace characters stripped by the model of JS
`String.prototype.trim` (space, tab, newline, carriage return). -/
def isSpaceChar (c : Char) : Bool :=
  c.toNat = 32 || c.toNat = 9 || c.toNat = 10 || c.toNat = 13

/-- Strip leading and trailing whitespace from a character list. -/
def trimChars (l : List Char) : List Char :=
  ((l.dropWhile isSpaceChar).reverse.dropWhile isSpaceChar).reverse

/-- Model of JS `word.trim()`. -/
def jsTrim (s : String) : String := ⟨trimChars s.data⟩

/-- Model of JS `word.toLowerCase()`. -/
def jsToLower (s : String) : String := ⟨s.data.map charToLower⟩

/-- `word.toLowerCase().trim()`, the normalization applied to every word by
the scorers in `src/hooks/useGame.js`. -/
def normalizeWord (w : String) : String := jsTrim (jsToLower w)

/-! ## The scorer (src/hooks/useGame.js, lines 1086-1225) -/

/-- The per-player record stored in the `PlayerScores` result object. -/
structure ScoreData where
  score : Nat
  matchedWords : List String
  bonusAwarded : Bool
deriving Repr, DecidableEq, Inhabited

/-- The `playerWords` argument `{playerId → [words]}`: an association list in
JS-object property-insertion order. -/
abbrev PlayerWords := List (String × List String)

/-- The `scores` result object. -/
abbrev Scores := List (String × ScoreData)

/-- The `wordToPlayers` dictionary: normalized word → player ids, one id per
occurrence of the word in that player's list. -/
abbrev WordMap := List (String × List String)

/-- First-match association-list lookup: JS property read, `undefined` as
`none`. -/
def lookupKey {β : Type} : List (String × β) → String → Option β
  | [], _ => none
  | e :: rest, k => if e.1 = k then some e.2 else lookupKey rest k

/-- The `scores[playerId] = {score: 0, matchedWords: [], bonusAwarded: false}`
initialization loop. -/
def initScores (pw : PlayerWords) : Scores :=
  pw.map fun e => (e.1, ⟨0, [], false⟩)

/-- `wordToPlayers[normalizedWord].push(playerId)`, creating the property (at
the end of the object) when absent. -/
def pushOccurrence (m : WordMap) (w pid : String) : WordMap :=
  match m with
  | [] => [(w, [pid])]
  | e :: rest => if e.1 = w then (e.1, e.2 ++ [pid]) :: rest else e :: pushOccurrence rest w pid

/-- The inner loop over one player's `words` populating `wordToPlayers`:
empty normalized words are skipped. -/
def addPlayerWords (m : WordMap) (pid : String) (ws : List String) : WordMap :=
  ws.foldl (fun m word =>
    let normalizedWord := normalizeWord word
    if normalizedWord ≠ "" then pushOccurrence m normalizedWord pid else m) m

/-- Builds the `wordToPlayers` map from `playerWords` (both scorers build it
identically). -/
def buildWordToPlayers (pw : PlayerWords) : WordMap :=
  pw.foldl (fun m e => addPlayerWords m e.1 e.2) []

/-- In-place update `scores[pid] := f scores[pid]` of the scores object. -/
def updateScore (sc : Scores) (pid : String) (f : ScoreData → ScoreData) : Scores :=
  sc.map fun e => if e.1 = pid then (e.1, f e.2) else e

/-- The match-round point-awarding loop: for every word present in more than
one slot of `wordToPlayers`, each listed player id gains +1 and the word is
pushed onto that player's `matchedWords`. -/
def awardMatchPoints (sc : Scores) (m : WordMap) : Scores :=
  m.foldl (fun sc e =>
    if 1 < e.2.length then
      e.2.foldl (fun sc pid =>
        updateScore sc pid fun d =>
          { d with score := d.score + 1, matchedWords := d.matchedWords ++ [e.1] }) sc
    else sc) sc

/-- `words.filter(word => word.trim() !== '')`. -/
def validWords (ws : List String) : List String :=
  ws.filter fun w => decide (jsTrim w ≠ "")

/-- The match-round perfect-bonus loop: a player with at least one valid word,
all of whose valid words have more than one slot in `wordToPlayers`, gains +1
and the `bonusAwarded` flag. -/
def awardMatchBonus (sc : Scores) (m : WordMap) (pw : PlayerWords) : Scores :=
  pw.foldl (fun sc e =>
    let vw := validWords e.2
    if 0 < vw.length then
      let allWordsMatched := vw.all fun w =>
        decide (1 < ((lookupKey m (normalizeWord w)).getD []).length)
      if allWordsMatched then
        updateScore sc e.1 fun d => { d with score := d.score + 1, bonusAwarded := true }
      else sc
    else sc) sc

/-- `calculateMatchRoundScores` (src/hooks/useGame.js:1086). -/
def calculateMatchRoundScores (playerWords : PlayerWords) : Scores :=
  let wordToPlayers := buildWordToPlayers playerWords
  awardMatchBonus (awardMatchPoints (initScores playerWords) wordToPlayers)
    wordToPlayers playerWords

/-- The unmatch-round point-awarding loop: a word with exactly one slot in
`wordToPlayers` gives its sole submitter +1 (the source also records it in a
local `playerUniqueWords` object that never reaches the returned scores);
a word with several slots is pushed onto `matchedWords` of every listed id. -/
def awardUnmatchPoints (sc : Scores) (m : WordMap) : Scores :=
  m.foldl (fun sc e =>
    if e.2.length = 1 then
      updateScore sc (e.2.headD "") fun d => { d with score := d.score + 1 }
    else
      e.2.foldl (fun sc pid =>
        updateScore sc pid fun d =>
          { d with matchedWords := d.matchedWords ++ [e.1] }) sc) sc

/-- The unmatch-round perfect-bonus loop: a player with at least one valid
word, all of whose valid words have exactly one slot in `wordToPlayers`,
gains +1 and the `bonusAwarded` flag. -/
def awardUnmatchBonus (sc : Scores) (m : WordMap) (pw : PlayerWords) : Scores :=
  pw.foldl (fun sc e =>
    let vw := validWords e.2
    if 0 < vw.length then
      let allWordsUnique := vw.all fun w =>
        decide (((lookupKey m (normalizeWord w)).getD []).length = 1)
      if allWordsUnique then
        updateScore sc e.1 fun d => { d with score := d.score + 1, bonusAwarded := true }
      else sc
    else sc) sc

/-- `calculateUnmatchRoundScores` (src/hooks/useGame.js:1157). -/
def calculateUnmatchRoundScores (playerWords : PlayerWords) : Scores :=
  let wordToPlayers := buildWordToPlayers playerWords
  awardUnmatchBonus (awardUnmatchPoints (initScores playerWords) wordToPlayers)
    wordToPlayers playerWords

/-! ## Derived (specification-level) quantities about the scorer -/

/-- The list of normalized, non-empty words of one player, in order. -/
def validNorm (ws : List String) : List String :=
  (ws.map normalizeWord).filter fun w => decide (w ≠ "")

/-- All (normalized word, player id) occurrence pairs of an input, in the
order the population loop visits them. -/
def occList (pw : PlayerWords) : List (String × String) :=
  (pw.map fun e => (validNorm e.2).map fun w => (w, e.1)).flatten

/-- Total number of occurrences of normalized word `w` across all players'
lists (occurrences from the same player each counted). -/
def totalOccs (pw : PlayerWords) (w : String) : Nat :=
  (occList pw).countP fun o => decide (o.1 = w)

/-- The keys of an association list. -/
def keysOf {β : Type} (l : List (String × β)) : List String := l.map Prod.fst

/-- The player's word lists keyed by distinct player ids. -/
abbrev PWKeysNodup (pw : PlayerWords) : Prop := (keysOf pw).Nodup

/-- The values that the occurrence pairs of `l` contribute to key `x`. -/
def keyVals (l : List (String × String)) (x : String) : List String :=
  (l.filter fun o => decide (o.1 = x)).map Prod.snd

/-- Folding a list of occurrence pairs into a `WordMap`. -/
def addAll (m : WordMap) (l : List (String × String)) : WordMap :=
  l.foldl (fun m o => pushOccurrence m o.1 o.2) m

/-- The number of slots for player `p` in a slot list. -/
def slotCount (ps : List String) (p : String) : Nat :=
  ps.countP fun x => decide (x = p)

/-- The effect of the match-round point loop on one player's record. -/
def matchPointsFold (m : WordMap) (p : String) (d : ScoreData) : ScoreData :=
  m.foldl (fun d e =>
    if 1 < e.2.length then
      e.2.foldl (fun d pid =>
        if p = pid then
          { d with score := d.score + 1, matchedWords := d.matchedWords ++ [e.1] }
        else d) d
    else d) d

/-- The effect of the match-round bonus loop on one player's record. -/
def matchBonusFold (m : WordMap) (pw : PlayerWords) (p : String) (d : ScoreData) : ScoreData :=
  pw.foldl (fun d e =>
    if 0 < (validWords e.2).length then
      if (validWords e.2).all (fun w =>
          decide (1 < ((lookupKey m (normalizeWord w)).getD []).length)) then
        if p = e.1 then { d with score := d.score + 1, bonusAwarded := true } else d
      else d
    else d) d

/-- The effect of the unmatch-round point loop on one player's record. -/
def unmatchPointsFold (m : WordMap) (p : String) (d : ScoreData) : ScoreData :=
  m.foldl (fun d e =>
    if e.2.length = 1 then
      (if p = e.2.headD "" then { d with score := d.score + 1 } else d)
    else
      e.2.foldl (fun d pid =>
        if p = pid then { d with matchedWords := d.matchedWords ++ [e.1] } else d) d) d

/-- The effect of the unmatch-round bonus loop on one player's record. -/
def unmatchBonusFold (m : WordMap) (pw : PlayerWords) (p : String) (d : ScoreData) : ScoreData :=
  pw.foldl (fun d e =>
    if 0 < (validWords e.2).length then
      if (validWords e.2).all (fun w =>
          decide (((lookupKey m (normalizeWord w)).getD []).length = 1)) then
        if p = e.1 then { d with score := d.score + 1, bonusAwarded := true } else d
      else d
    else d) d

/-- Generic per-player tally over a `WordMap`: for every entry whose slot
count satisfies `cond`, count the player's own slots. -/
def wmCount (cond : Nat → Bool) (m : WordMap) (p : String) : Nat :=
  match m with
  | [] => 0
  | e :: rest => (if cond e.2.length then slotCount e.2 p else 0) + wmCount cond rest p

/-- The `matchedWords` list accumulated for player `p` by the match-round
point loop. -/
def wmMatchedM (m : WordMap) (p : String) : List String :=
  match m with
  | [] => []
  | e :: rest =>
      (if 1 < e.2.length then List.replicate (slotCount e.2 p) e.1 else []) ++ wmMatchedM rest p

/-- The `matchedWords` list accumulated for player `p` by the unmatch-round
point loop. -/
def wmMatchedU (m : WordMap) (p : String) : List String :=
  match m with
  | [] => []
  | e :: rest =>
      (if e.2.length = 1 then [] else List.replicate (slotCount e.2 p) e.1) ++ wmMatchedU rest p

/-- The score field of a player's result (defaulting to 0 when absent). -/
def scoreAt (sc : Scores) (p : String) : Nat :=
  ((lookupKey sc p).getD ⟨0, [], false⟩).score

/-- The bonus flag of a player's result (defaulting to false when absent). -/
def bonusAt (sc : Scores) (p : String) : Bool :=
  ((lookupKey sc p).getD ⟨0, [], false⟩).bonusAwarded

/-- The matchedWords field of a player's result. -/
def matchedAt (sc : Scores) (p : String) : List String :=
  ((lookupKey sc p).getD ⟨0, [], false⟩).matchedWords

/-- Match-round base score (before the bonus): one point per occurrence, in
the player's own list, of a normalized word with at least two occurrences in
total. -/
def matchBaseScore (pw : PlayerWords) (ws : List String) : Nat :=
  (validNorm ws).countP fun w => decide (2 ≤ totalOccs pw w)

/-- Unmatch-round base score (before the bonus): one point per normalized
word of the player's list whose total occurrence count is exactly one. -/
def unmatchBaseScore (pw : PlayerWords) (ws : List String) : Nat :=
  (validNorm ws).countP fun w => decide (totalOccs pw w = 1)

/-- The match-round perfect-bonus condition in occurrence-count form. -/
def matchBonusOf (pw : PlayerWords) (ws : List String) : Bool :=
  decide (validWords ws ≠ []) &&
    (validWords ws).all fun w => decide (2 ≤ totalOccs pw (normalizeWord w))

/-- The unmatch-round perfect-bonus condition in occurrence-count form. -/
def unmatchBonusOf (pw : PlayerWords) (ws : List String) : Bool :=
  decide (validWords ws ≠ []) &&
    (validWords ws).all fun w => decide (totalOccs pw (normalizeWord w) = 1)

/-- Two inputs are equivalent when they list the same players (in possibly
different order) with the same words (each list in possibly different
order). -/
def InputEquiv (pw pw' : PlayerWords) : Prop :=
  ∃ pw₀, List.Forall₂ (fun a b => a.1 = b.1 ∧ a.2.Perm b.2) pw pw₀ ∧ pw₀.Perm pw'

/-- Modelled from the spec: the number of distinct players that submitted at
least one occurrence of normalized word `w` ("a word shared by two or more
distinct players").  Used only to state the claims' original wording; the
source tallies occurrence slots instead. -/
def distinctSubmitters (pw : PlayerWords) (w : String) : Nat :=
  ((((occList pw).filter fun o => decide (o.1 = w)).map Prod.snd).dedup).length

/-- Modelled from the spec: the statement of claim C1 (match-round points are
driven by words shared by two or more distinct players). -/
def c1SpecHolds (pw : PlayerWords) : Prop :=
  ∀ e ∈ pw,
    scoreAt (calculateMatchRoundScores pw) e.1 =
      ((validNorm e.2).countP fun w => decide (2 ≤ distinctSubmitters pw w)) +
        (if bonusAt (calculateMatchRoundScores pw) e.1 then 1 else 0)

/-- Modelled from the spec: the statement of claim C2 (unmatch-round points
are driven by words submitted by exactly one player). -/
def c2SpecHolds (pw : PlayerWords) : Prop :=
  ∀ e ∈ pw,
    scoreAt (calculateUnmatchRoundScores pw) e.1 =
      ((validNorm e.2).countP fun w => decide (distinctSubmitters pw w = 1)) +
        (if bonusAt (calculateUnmatchRoundScores pw) e.1 then 1 else 0)

/-- Modelled from the spec: the statement of claim C3's bonus biconditional
(bonus iff at least one valid word and every valid word matched by another
player, resp. unique to its submitter). -/
def c3SpecHolds (pw : PlayerWords) : Prop :=
  ∀ e ∈ pw,
    (bonusAt (calculateMatchRoundScores pw) e.1 = true ↔
      (validWords e.2 ≠ [] ∧
        ∀ w ∈ validWords e.2, 2 ≤ distinctSubmitters pw (normalizeWord w))) ∧
    (bonusAt (calculateUnmatchRoundScores pw) e.1 = true ↔
      (validWords e.2 ≠ [] ∧
        ∀ w ∈ validWords e.2, distinctSubmitters pw (normalizeWord w) = 1))

/-! ## The round-close flow (pages/api/games/join.ts end-round handler,
src/hooks/useGame.js saveRoundScores, pages/api/games/start-round.ts) -/

/-- A `rounds` table row (fields touched by the modelled flow; timestamps are
naturals). -/
structure RoundRec where
  roundNumber : Nat
  rtype : String
  endTime : Option Nat
deriving Repr, DecidableEq

/-- A `round_scores` table row. -/
structure RoundScoreRec where
  roundNumber : Nat
  playerId : String
  value : Nat
deriving Repr, DecidableEq

/-- The database state of one game as touched by the round-close flow:
game row fields, rounds, players (id and cumulative score), round_scores. -/
structure GameState where
  status : String
  currentRound : Nat
  roundCount : Nat
  rounds : List RoundRec
  players : List (String × Nat)
  roundScores : List RoundScoreRec
deriving Repr, DecidableEq

/-- Is there a round with the given round number? -/
def hasRound (st : GameState) (rn : Nat) : Bool :=
  st.rounds.any fun r => r.roundNumber == rn

/-- Fetch the round with the given round number (`.single()`). -/
def getRound (st : GameState) (rn : Nat) : Option RoundRec :=
  st.rounds.find? fun r => r.roundNumber == rn

/-- `UPDATE rounds SET end_time = now WHERE id = rn` — note: no
`end_time IS NULL` guard in the source. -/
def setEndTime (st : GameState) (rn : Nat) (now : Nat) : GameState :=
  { st with rounds := st.rounds.map fun r =>
      if r.roundNumber = rn then { r with endTime := some now } else r }

/-- Does a `round_scores` row for this round and player exist? -/
def hasScoreRow (st : GameState) (rn : Nat) (p : String) : Bool :=
  st.roundScores.any fun row => row.roundNumber == rn && row.playerId == p

/-- Number of `round_scores` rows for this round and player. -/
def rowCount (st : GameState) (rn : Nat) (p : String) : Nat :=
  st.roundScores.countP fun row => decide (row.roundNumber = rn ∧ row.playerId = p)

/-- One iteration of the `saveRoundScores` loop: the `round_scores` insert
(a `UNIQUE(round_id, player_id)` violation returns an error object that the
source never checks, so the row is simply not duplicated), followed by the
`update_player_score` RPC, which adds the round score to the player's
cumulative total unconditionally. -/
def saveOneScore (st : GameState) (rn : Nat) (p : String) (d : ScoreData) : GameState :=
  let st' := if hasScoreRow st rn p then st
             else { st with roundScores := st.roundScores ++ [⟨rn, p, d.score⟩] }
  { st' with players := st'.players.map fun q =>
      if q.1 = p then (q.1, q.2 + d.score) else q }

/-- `saveRoundScores` (src/hooks/useGame.js:1233): saves each player's entry
in order.  `failAt = some k` models a thrown persistence error while
processing entry `k`: the first `k` entries are saved and the exception
propagates (the returned flag is false when the failure actually hit). -/
def saveRoundScoresOp (st : GameState) (rn : Nat) (entries : Scores)
    (failAt : Option Nat) : GameState × Bool :=
  match failAt with
  | none => (entries.foldl (fun st e => saveOneScore st rn e.1 e.2) st, true)
  | some k =>
      ((entries.take k).foldl (fun st e => saveOneScore st rn e.1 e.2) st,
        decide (entries.length ≤ k))

/-- Grouping of submission rows into `playerWords`
(pages/api/games/join.ts:172-183): every row creates the player's entry, but
only non-empty words are pushed, already lowercased and trimmed. -/
def groupSubmissions (subs : List (String × String)) : PlayerWords :=
  subs.foldl (fun pw s =>
    let pw' := if (lookupKey pw s.1).isSome then pw else pw ++ [(s.1, [])]
    if jsTrim s.2 ≠ "" then
      pw'.map fun e => if e.1 = s.1 then (e.1, e.2 ++ [normalizeWord s.2]) else e
    else pw') []

/-- Next-round type rule of pages/api/games/join.ts (line 272): parity of the
next round number. -/
def nextRoundTypeJoin (currentRound : Nat) : String :=
  if (currentRound + 1) % 2 = 0 then "match" else "unmatch"

/-- Next-round type rule of pages/api/games/start-round.ts (line 98): parity
of the current round number. -/
def nextRoundTypeStartRound (currentRoundNumber : Nat) : String :=
  if currentRoundNumber % 2 = 0 then "match" else "unmatch"

/-- Next-round type rule of the edge function
(supabase/functions/handle-game-logic/index.js:533): strict toggle of the
closed round's type. -/
def nextRoundTypeEdge (t : String) : String :=
  if t = "match" then "unmatch" else "match"

/-- The end-round flow: the handler of pages/api/games/join.ts stamps
`end_time` (no null-guard), then `calculateRoundScores` fetches the round and
its submissions, returns early when there are none, otherwise scores them,
saves per-player rows and cumulative scores, and finally either marks the
game completed (`current_round >= round_count`) or inserts the next round and
bumps `current_round` (skipped when the next round number already exists,
since the insert then fails and the source skips the update). -/
def endRoundOp (st : GameState) (rn : Nat) (subs : List (String × String))
    (now : Nat) (failAt : Option Nat) : GameState :=
  let st1 := setEndTime st rn now
  match getRound st1 rn with
  | none => st1
  | some round =>
    if subs.isEmpty then st1
    else
      let playerWords := groupSubmissions subs
      let scores := if round.rtype = "match" then calculateMatchRoundScores playerWords
                    else calculateUnmatchRoundScores playerWords
      let res := saveRoundScoresOp st1 rn scores failAt
      if !res.2 then res.1
      else if res.1.roundCount ≤ res.1.currentRound then
        { res.1 with status := "completed" }
      else
        let nextRoundNumber := res.1.currentRound + 1
        if hasRound res.1 nextRoundNumber then res.1
        else
          { res.1 with
            rounds := res.1.rounds ++ [⟨nextRoundNumber, nextRoundTypeJoin res.1.currentRound, none⟩],
            currentRound := nextRoundNumber }

/-- The start-round flow (pages/api/games/start-round.ts): host-initiated.
Rejected when `current_round >= round_count`; when the client-supplied
`currentRoundNumber` is positive, that round must exist and be closed; the
new round `currentRoundNumber + 1` is inserted (a duplicate round number
makes the insert fail, aborting before the `current_round` update). -/
def startRoundOp (st : GameState) (currentRoundNumber : Nat) : GameState :=
  if st.roundCount ≤ st.currentRound then st
  else
    let proceed : Bool :=
      if currentRoundNumber = 0 then true
      else match getRound st currentRoundNumber with
        | none => false
        | some r => (r.endTime).isSome
    if proceed then
      let newRoundNumber := currentRoundNumber + 1
      if hasRound st newRoundNumber then st
      else
        { st with
          rounds := st.rounds ++ [⟨newRoundNumber, nextRoundTypeStartRound currentRoundNumber, none⟩],
          currentRound := newRoundNumber }
    else st

/-- The operations an external caller can invoke on the modelled state. -/
inductive GameOp where
  | endR (rn : Nat) (subs : List (String × String)) (now : Nat) (failAt : Option Nat)
  | startR (currentRoundNumber : Nat)

/-- Apply one operation. -/
def applyOp (st : GameState) : GameOp → GameState
  | .endR rn subs now failAt => endRoundOp st rn subs now failAt
  | .startR n => startRoundOp st n

/-- Apply a sequence of operations. -/
def runOps (st : GameState) (ops : List GameOp) : GameState :=
  ops.foldl applyOp st

/-- The multiset of round numbers present in the rounds table. -/
def roundNumbers (st : GameState) : List Nat :=
  st.rounds.map fun r => r.roundNumber

/-- Structural invariant of the rounds table: round numbers are exactly
`1..current_round`, and `current_round` never exceeds `round_count`. -/
def RoundsInv (st : GameState) : Prop :=
  (∀ n ∈ roundNumbers st, 1 ≤ n ∧ n ≤ st.currentRound) ∧
  (∀ n, 1 ≤ n → n ≤ st.currentRound → n ∈ roundNumbers st) ∧
  st.currentRound ≤ st.roundCount

/-- The round types a game driven by the join.ts auto-advance produces:
round 1 has the randomly chosen type; closing round `n` creates round `n + 1`
with `nextRoundTypeJoin n`. -/
def roundTypesJoin (first : String) (n : Nat) : String :=
  if n ≤ 1 then first else nextRoundTypeJoin (n - 1)

/-- The round types a game driven by the edge function's endRound produces:
round 1 has the randomly chosen type; each later round toggles the previous
type. -/
def roundTypesEdge (first : String) : Nat → String
  | 0 => first
  | 1 => first
  | n + 2 => nextRoundTypeEdge (roundTypesEdge first (n + 1))

/-! ## Topic drawing (src/hooks/useGame.js getRandomTopic) -/

/-- A topic record. -/
structure Topic where
  id : String
  name : String
deriving Repr, DecidableEq

/-- `getRandomTopic` (src/hooks/useGame.js:990): filter out used topics,
reset to the full pool when none remain, then pick the random index.  The
thrown "No topics available" error and the (unreachable) out-of-range access
are both modelled as `none`; `randomIndex` stands for
`Math.floor(Math.random() * availableTopics.length)`, which is always below
the list length. -/
def getRandomTopic (pool : List Topic) (usedTopicIds : List String)
    (randomIndex : Nat) : Option Topic :=
  if pool.length = 0 then none
  else
    let availableTopics := pool.filter fun t => !(usedTopicIds.contains t.id)
    let availableTopics := if availableTopics.length = 0 then pool else availableTopics
    availableTopics[randomIndex]?

/-! ## Concrete states used by the counterexamples -/

/-- A one-player, one-round game about to close its only round. -/
def c4ex : GameState :=
  { status := "in-progress", currentRound := 1, roundCount := 1,
    rounds := [⟨1, "unmatch", none⟩], players := [("p1", 0)], roundScores := [] }

/-- A five-round game whose fifth round is open and about to be closed. -/
def c7ex : GameState :=
  { status := "in-progress", currentRound := 5, roundCount := 5,
    rounds := [⟨1, "match", some 10⟩, ⟨2, "unmatch", some 20⟩, ⟨3, "match", some 30⟩,
               ⟨4, "unmatch", some 40⟩, ⟨5, "match", none⟩],
    players := [("p1", 7)], roundScores :=
      [⟨1, "p1", 2⟩, ⟨2, "p1", 2⟩, ⟨3, "p1", 1⟩, ⟨4, "p1", 2⟩] }

/-! ## Theorems. First: the string model -/

theorem toNat_charOfNat {n : Nat} (h : n < 55296) : (Char.ofNat n).toNat = n := by
  simp only [Char.ofNat, Nat.isValidChar]
  rw [dif_pos (Or.inl h)]
  simp [Char.ofNatAux, Char.toNat, UInt32.ofNat', UInt32.toNat]

theorem isSpaceChar_eq_false_of_ge {c : Char} (h : 65 ≤ c.toNat) :
    isSpaceChar c = false := by
  simp only [isSpaceChar, Bool.or_eq_false_iff, decide_eq_false_iff_not]
  omega

theorem isSpaceChar_charToLower (c : Char) :
    isSpaceChar (charToLower c) = isSpaceChar c := by
  unfold charToLower
  split
  · rename_i h
    have h1 : 65 ≤ c.toNat := h.1
    have h2 : c.toNat ≤ 90 := h.2
    have ht : (Char.ofNat (c.toNat + 32)).toNat = c.toNat + 32 :=
      toNat_charOfNat (by omega)
    have hA : isSpaceChar (Char.ofNat (c.toNat + 32)) = false :=
      isSpaceChar_eq_false_of_ge (by rw [ht]; omega)
    rw [hA, isSpaceChar_eq_false_of_ge h1]
  · rfl

theorem forall_mem_dropWhile_iff (p : Char → Bool) (l : List Char) :
    (∀ c ∈ l.dropWhile p, p c = true) ↔ (∀ c ∈ l, p c = true) := by
  induction l with
  | nil => simp
  | cons a l ih =>
    by_cases ha : p a = true
    · rw [List.dropWhile_cons_of_pos ha, ih]
      constructor
      · intro h c hc
        rcases List.mem_cons.mp hc with h1 | h1
        · rw [h1]; exact ha
        · exact h c h1
      · intro h c hc
        exact h c (List.mem_cons_of_mem a hc)
    · rw [List.dropWhile_cons_of_neg ha]

theorem trimChars_eq_nil_iff (l : List Char) :
    trimChars l = [] ↔ ∀ c ∈ l, isSpaceChar c = true := by
  unfold trimChars
  rw [List.reverse_eq_nil_iff, List.dropWhile_eq_nil_iff]
  constructor
  · intro h
    rw [← forall_mem_dropWhile_iff isSpaceChar l]
    intro x hx
    exact h x (List.mem_reverse.mpr hx)
  · intro h c hc
    rw [List.mem_reverse] at hc
    exact h c ((List.dropWhile_sublist isSpaceChar).subset hc)

theorem jsTrim_eq_empty_iff (s : String) :
    jsTrim s = "" ↔ ∀ c ∈ s.data, isSpaceChar c = true := by
  unfold jsTrim
  rw [show ("" : String) = ⟨[]⟩ from rfl, String.ext_iff]
  exact trimChars_eq_nil_iff s.data

theorem data_jsToLower (w : String) :
    (jsToLower w).data = w.data.map charToLower := rfl

theorem normalizeWord_eq_empty_iff (w : String) :
    normalizeWord w = "" ↔ jsTrim w = "" := by
  unfold normalizeWord
  rw [jsTrim_eq_empty_iff, jsTrim_eq_empty_iff, data_jsToLower]
  constructor
  · intro h c hc
    have := h (charToLower c) (List.mem_map_of_mem charToLower hc)
    rwa [isSpaceChar_charToLower] at this
  · intro h c hc
    simp only [List.mem_map] at hc
    obtain ⟨a, ha, rfl⟩ := hc
    rw [isSpaceChar_charToLower]
    exact h a ha

theorem decide_normalize_eq_decide_trim (w : String) :
    (decide (normalizeWord w ≠ "")) = (decide (jsTrim w ≠ "")) :=
  decide_eq_decide.mpr (by simp only [ne_eq, normalizeWord_eq_empty_iff])

theorem length_validNorm (ws : List String) :
    (validNorm ws).length = (validWords ws).length := by
  unfold validNorm validWords
  rw [← List.countP_eq_length_filter, ← List.countP_eq_length_filter, List.countP_map]
  apply List.countP_congr
  intro w _
  rw [show ((fun w => decide (w ≠ "")) ∘ normalizeWord) w = decide (jsTrim w ≠ "") from
    decide_normalize_eq_decide_trim w]

/-! ## Association-list lemmas -/

theorem mem_keysOf_iff {β : Type} {l : List (String × β)} {k : String} :
    k ∈ keysOf l ↔ ∃ e ∈ l, e.1 = k := by
  unfold keysOf
  rw [List.mem_map]

theorem lookupKey_eq_none_iff {β : Type} (l : List (String × β)) (k : String) :
    lookupKey l k = none ↔ k ∉ keysOf l := by
  induction l with
  | nil => simp [lookupKey, keysOf]
  | cons e rest ih =>
    unfold lookupKey
    by_cases he : e.1 = k
    · simp [he, keysOf]
    · rw [if_neg he, ih]
      unfold keysOf
      simp only [List.map_cons, List.mem_cons, not_or]
      constructor
      · intro h
        exact ⟨fun hk => he hk.symm, h⟩
      · intro h
        exact h.2

theorem lookupKey_map_entry {β γ : Type} (l : List (String × β)) (f : String → β → γ)
    (k : String) :
    lookupKey (l.map fun e => (e.1, f e.1 e.2)) k = (lookupKey l k).map (f k) := by
  induction l with
  | nil => rfl
  | cons e rest ih =>
    simp only [List.map_cons]
    unfold lookupKey
    by_cases he : e.1 = k
    · rw [if_pos he, if_pos he, he]
      rfl
    · rw [if_neg he, if_neg he, ih]

theorem lookupKey_of_mem_nodup {β : Type} {l : List (String × β)} {k : String} {v : β}
    (hnd : (keysOf l).Nodup) (hm : (k, v) ∈ l) : lookupKey l k = some v := by
  induction l with
  | nil => cases hm
  | cons e rest ih =>
    unfold keysOf at hnd
    rw [List.map_cons, List.nodup_cons] at hnd
    rcases List.mem_cons.mp hm with h1 | h1
    · rw [← h1]
      unfold lookupKey
      rw [if_pos rfl]
    · unfold lookupKey
      by_cases he : e.1 = k
      · exfalso
        apply hnd.1
        rw [he]
        exact mem_keysOf_iff.mpr ⟨(k, v), h1, rfl⟩
      · rw [if_neg he]
        exact ih hnd.2 h1

theorem lookupKey_some_mem {β : Type} {l : List (String × β)} {k : String} {v : β}
    (h : lookupKey l k = some v) : (k, v) ∈ l := by
  induction l with
  | nil => cases h
  | cons e rest ih =>
    unfold lookupKey at h
    by_cases he : e.1 = k
    · rw [if_pos he] at h
      have hev : e = (k, v) := Prod.ext he (Option.some_inj.mp h)
      rw [← hev]
      exact List.mem_cons_self _ _
    · rw [if_neg he] at h
      exact List.mem_cons_of_mem e (ih h)

theorem lookupKey_isSome_iff {β : Type} (l : List (String × β)) (k : String) :
    (lookupKey l k).isSome = true ↔ k ∈ keysOf l := by
  constructor
  · intro h
    match hl : lookupKey l k with
    | some v => exact mem_keysOf_iff.mpr ⟨(k, v), lookupKey_some_mem hl, rfl⟩
    | none => rw [hl] at h; cases h
  · intro h
    cases hl : lookupKey l k with
    | some v => rfl
    | none => exact absurd h ((lookupKey_eq_none_iff l k).mp hl)

/-! ## Structure of the wordToPlayers map -/

theorem lookupKey_pushOccurrence (m : WordMap) (w pid x : String) :
    lookupKey (pushOccurrence m w pid) x =
      if x = w then some ((lookupKey m w).getD [] ++ [pid]) else lookupKey m x := by
  induction m with
  | nil =>
    by_cases hx : x = w
    · subst hx
      simp [pushOccurrence, lookupKey]
    · simp [pushOccurrence, lookupKey, hx, Ne.symm hx]
  | cons e rest ih =>
    unfold pushOccurrence
    by_cases he : e.1 = w
    · rw [if_pos he]
      by_cases hx : x = w
      · subst hx
        unfold lookupKey
        rw [if_pos he, if_pos rfl, if_pos he]
        rfl
      · unfold lookupKey
        rw [if_neg (fun h : e.1 = x => hx (h.symm.trans he)), if_neg hx,
          if_neg (fun h : e.1 = x => hx (h.symm.trans he))]
    · rw [if_neg he]
      by_cases hex : e.1 = x
      · have hxw : ¬x = w := fun h => he (hex.trans h)
        unfold lookupKey
        rw [if_pos hex, if_neg hxw, if_pos hex]
      · unfold lookupKey
        rw [if_neg hex, if_neg hex, ih]
        by_cases hx : x = w
        · rw [if_pos hx, if_pos hx]
          unfold lookupKey
          rw [if_neg (hx ▸ he)]
        · rw [if_neg hx, if_neg hx]

theorem keysOf_pushOccurrence (m : WordMap) (w pid : String) :
    keysOf (pushOccurrence m w pid) =
      if w ∈ keysOf m then keysOf m else keysOf m ++ [w] := by
  induction m with
  | nil => simp [pushOccurrence, keysOf]
  | cons e rest ih =>
    unfold pushOccurrence
    by_cases he : e.1 = w
    · rw [if_pos he]
      have hw : w ∈ keysOf (e :: rest) := by
        unfold keysOf
        rw [List.map_cons]
        exact he ▸ List.mem_cons_self _ _
      rw [if_pos hw]
      unfold keysOf
      rw [List.map_cons, List.map_cons]
    · rw [if_neg he]
      unfold keysOf
      unfold keysOf at ih
      simp only [List.map_cons]
      rw [ih]
      by_cases hw : w ∈ List.map Prod.fst rest
      · rw [if_pos hw, if_pos (List.mem_cons_of_mem e.1 hw)]
      · have hw2 : ¬ w ∈ e.1 :: List.map Prod.fst rest := by
          intro hmem
          rcases List.mem_cons.mp hmem with h1 | h1
          · exact he h1.symm
          · exact hw h1
        rw [if_neg hw, if_neg hw2, List.cons_append]

theorem nodup_keysOf_pushOccurrence {m : WordMap} (w pid : String)
    (h : (keysOf m).Nodup) : (keysOf (pushOccurrence m w pid)).Nodup := by
  rw [keysOf_pushOccurrence]
  by_cases hw : w ∈ keysOf m
  · rw [if_pos hw]; exact h
  · rw [if_neg hw, List.nodup_append]
    refine ⟨h, List.nodup_singleton w, ?_⟩
    intro a ha hamem
    rw [List.mem_singleton] at hamem
    exact hw (hamem ▸ ha)

theorem addAll_append (m : WordMap) (l₁ l₂ : List (String × String)) :
    addAll m (l₁ ++ l₂) = addAll (addAll m l₁) l₂ := by
  unfold addAll
  rw [List.foldl_append]

theorem keyVals_cons (o : String × String) (l : List (String × String)) (x : String) :
    keyVals (o :: l) x = (if o.1 = x then [o.2] else []) ++ keyVals l x := by
  unfold keyVals
  rw [List.filter_cons]
  by_cases h : o.1 = x
  · simp [h]
  · simp [h]

theorem getD_lookupKey_addAll (l : List (String × String)) :
    ∀ (m : WordMap) (x : String),
      (lookupKey (addAll m l) x).getD [] = (lookupKey m x).getD [] ++ keyVals l x := by
  induction l with
  | nil =>
    intro m x
    simp [addAll, keyVals]
  | cons o l ih =>
    intro m x
    rw [show addAll m (o :: l) = addAll (pushOccurrence m o.1 o.2) l from rfl, ih,
      lookupKey_pushOccurrence, keyVals_cons]
    by_cases hx : x = o.1
    · rw [if_pos hx, if_pos hx.symm, hx]
      simp [List.append_assoc]
    · rw [if_neg hx, if_neg (fun h : o.1 = x => hx h.symm)]
      simp

theorem nodup_keysOf_addAll (l : List (String × String)) :
    ∀ m : WordMap, (keysOf m).Nodup → (keysOf (addAll m l)).Nodup := by
  induction l with
  | nil => intro m h; exact h
  | cons o l ih =>
    intro m h
    exact ih _ (nodup_keysOf_pushOccurrence o.1 o.2 h)

theorem entry_addAll (l : List (String × String)) {e : String × List String}
    (he : e ∈ addAll [] l) : e.2 = keyVals l e.1 := by
  have hnd : (keysOf (addAll ([] : WordMap) l)).Nodup :=
    nodup_keysOf_addAll l [] (by simp [keysOf])
  have hmem : (e.1, e.2) ∈ addAll [] l := by
    rw [Prod.mk.eta]
    exact he
  have hl := lookupKey_of_mem_nodup hnd hmem
  have hd := getD_lookupKey_addAll l [] e.1
  rw [hl] at hd
  simpa [lookupKey] using hd

theorem mem_keysOf_addAll {l : List (String × String)} {o : String × String}
    (ho : o ∈ l) : o.1 ∈ keysOf (addAll [] l) := by
  rw [← lookupKey_isSome_iff]
  have hv : o.2 ∈ keyVals l o.1 := by
    unfold keyVals
    exact List.mem_map_of_mem Prod.snd (List.mem_filter.mpr ⟨ho, by simp⟩)
  have hd := getD_lookupKey_addAll l [] o.1
  cases hl : lookupKey (addAll ([] : WordMap) l) o.1 with
  | some v => rfl
  | none =>
    rw [hl] at hd
    simp only [lookupKey, Option.getD_none, List.nil_append] at hd
    rw [← hd] at hv
    cases hv

theorem validNorm_cons (w : String) (ws : List String) :
    validNorm (w :: ws) =
      if normalizeWord w ≠ "" then normalizeWord w :: validNorm ws else validNorm ws := by
  unfold validNorm
  rw [List.map_cons, List.filter_cons]
  by_cases h : normalizeWord w ≠ ""
  · simp [h]
  · simp [h]

theorem addPlayerWords_eq (ws : List String) :
    ∀ (m : WordMap) (pid : String),
      addPlayerWords m pid ws = addAll m ((validNorm ws).map fun w => (w, pid)) := by
  induction ws with
  | nil => intro m pid; simp [addPlayerWords, validNorm, addAll]
  | cons w ws ih =>
    intro m pid
    rw [validNorm_cons]
    show addPlayerWords (if normalizeWord w ≠ "" then pushOccurrence m (normalizeWord w) pid
      else m) pid ws = _
    by_cases h : normalizeWord w ≠ ""
    · rw [if_pos h, if_pos h, List.map_cons, ih,
        show addAll m ((normalizeWord w, pid) :: (validNorm ws).map fun w => (w, pid)) =
          addAll (pushOccurrence m (normalizeWord w) pid) ((validNorm ws).map fun w => (w, pid))
          from rfl]
    · rw [if_neg h, if_neg h, ih]

theorem buildWordToPlayers_eq (pw : PlayerWords) :
    buildWordToPlayers pw = addAll [] (occList pw) := by
  suffices h : ∀ m : WordMap,
      pw.foldl (fun m e => addPlayerWords m e.1 e.2) m = addAll m (occList pw) by
    exact h []
  induction pw with
  | nil => intro m; rfl
  | cons e pw ih =>
    intro m
    rw [List.foldl_cons, ih]
    unfold occList
    rw [List.map_cons, List.flatten_cons, addAll_append, addPlayerWords_eq]

theorem wordSlots_eq (pw : PlayerWords) (x : String) :
    ((lookupKey (buildWordToPlayers pw) x).getD []).length = totalOccs pw x := by
  rw [buildWordToPlayers_eq, getD_lookupKey_addAll]
  simp only [lookupKey, Option.getD_none, List.nil_append]
  unfold keyVals totalOccs
  rw [List.length_map, ← List.countP_eq_length_filter]

/-! ## Counting lemmas -/

theorem wmCount_cons (cond : Nat → Bool) (e : String × List String) (m : WordMap)
    (p : String) :
    wmCount cond (e :: m) p =
      (if cond e.2.length then slotCount e.2 p else 0) + wmCount cond m p := rfl

theorem wmMatchedM_cons (e : String × List String) (m : WordMap) (p : String) :
    wmMatchedM (e :: m) p =
      (if 1 < e.2.length then List.replicate (slotCount e.2 p) e.1 else []) ++
        wmMatchedM m p := rfl

theorem wmMatchedU_cons (e : String × List String) (m : WordMap) (p : String) :
    wmMatchedU (e :: m) p =
      (if e.2.length = 1 then [] else List.replicate (slotCount e.2 p) e.1) ++
        wmMatchedU m p := rfl

theorem sum_map_add {α : Type} (l : List α) (f g : α → Nat) :
    (l.map fun x => f x + g x).sum = (l.map f).sum + (l.map g).sum := by
  induction l with
  | nil => rfl
  | cons a l ih =>
    simp only [List.map_cons, List.sum_cons, ih]
    omega

theorem sum_map_zero {α : Type} (l : List α) :
    (l.map fun _ => (0 : Nat)).sum = 0 := by
  induction l with
  | nil => rfl
  | cons a l ih => simp [ih]

theorem countP_key_eq_one {ks : List String} {a : String} (hnd : ks.Nodup) (ha : a ∈ ks) :
    (ks.countP fun x => decide (x = a)) = 1 := by
  induction ks with
  | nil => cases ha
  | cons k ks ih =>
    rw [List.nodup_cons] at hnd
    rw [List.countP_cons]
    by_cases hk : k = a
    · have hz : ks.countP (fun x => decide (x = a)) = 0 := by
        rw [List.countP_eq_zero]
        intro x hx
        simp only [decide_eq_true_eq]
        intro hxa
        exact hnd.1 (by rw [hk, ← hxa]; exact hx)
      rw [hz, if_pos (by simp [hk])]
    · have ha2 : a ∈ ks := by
        rcases List.mem_cons.mp ha with h1 | h1
        · exact absurd h1.symm hk
        · exact h1
      rw [ih hnd.2 ha2, if_neg (by simp [hk])]

theorem sum_map_key_indicator (ks : List String) (a : String) :
    (ks.map fun x => if a = x then (1 : Nat) else 0).sum
      = ks.countP fun x => decide (x = a) := by
  induction ks with
  | nil => rfl
  | cons k ks ih =>
    rw [List.map_cons, List.sum_cons, List.countP_cons, ih]
    by_cases hk : a = k
    · rw [if_pos hk, if_pos (by simp [hk.symm])]
      omega
    · rw [if_neg hk, if_neg (by simp only [decide_eq_true_eq]; exact fun h => hk h.symm)]
      omega

theorem partition_countP (ks : List String) (Q : String × String → Bool)
    (hnd : ks.Nodup) :
    ∀ l : List (String × String), (∀ o ∈ l, o.1 ∈ ks) →
      (ks.map fun x => l.countP fun o => decide (o.1 = x) && Q o).sum = l.countP Q := by
  intro l
  induction l with
  | nil =>
    intro _
    simp only [List.countP_nil]
    exact sum_map_zero ks
  | cons o l ih =>
    intro hcov
    have hcov' : ∀ x ∈ l, (x : String × String).1 ∈ ks :=
      fun x hx => hcov x (List.mem_cons_of_mem o hx)
    rw [List.countP_cons]
    have hsplit : (ks.map fun x => (o :: l).countP fun o' => decide (o'.1 = x) && Q o').sum
        = (ks.map fun x => l.countP fun o' => decide (o'.1 = x) && Q o').sum
          + (ks.map fun x => if (decide (o.1 = x) && Q o) = true then 1 else 0).sum := by
      rw [← sum_map_add]
      congr 1
      apply List.map_congr_left
      intro x _
      rw [List.countP_cons]
    rw [hsplit, ih hcov']
    congr 1
    by_cases hQ : Q o = true
    · have hmap : (ks.map fun x => if (decide (o.1 = x) && Q o) = true then 1 else 0)
          = ks.map fun x => if o.1 = x then (1 : Nat) else 0 := by
        apply List.map_congr_left
        intro x _
        simp [hQ]
      rw [hmap, sum_map_key_indicator, countP_key_eq_one hnd (hcov o (List.mem_cons_self _ _)),
        if_pos hQ]
    · have hmap : (ks.map fun x => if (decide (o.1 = x) && Q o) = true then 1 else 0)
          = ks.map fun _ => (0 : Nat) := by
        apply List.map_congr_left
        intro x _
        simp [hQ]
      rw [hmap, sum_map_zero, if_neg hQ]

theorem mem_occList_pid {pw : PlayerWords} {o : String × String} (ho : o ∈ occList pw) :
    o.2 ∈ keysOf pw := by
  unfold occList at ho
  rw [List.mem_flatten] at ho
  obtain ⟨block, hb, hob⟩ := ho
  rw [List.mem_map] at hb
  obtain ⟨e, he, rfl⟩ := hb
  rw [List.mem_map] at hob
  obtain ⟨w, _, rfl⟩ := hob
  exact mem_keysOf_iff.mpr ⟨e, he, rfl⟩

theorem countP_occList_player (P : String → Bool) :
    ∀ (pw : PlayerWords) (p : String) (ws : List String),
      PWKeysNodup pw → (p, ws) ∈ pw →
      ((occList pw).countP fun o => decide (o.2 = p) && P o.1) = (validNorm ws).countP P := by
  intro pw
  induction pw with
  | nil =>
    intro p ws _ hm
    cases hm
  | cons e pw ih =>
    intro p ws hnd hm
    unfold PWKeysNodup keysOf at hnd
    rw [List.map_cons, List.nodup_cons] at hnd
    unfold occList
    rw [List.map_cons, List.flatten_cons, List.countP_append]
    by_cases hep : e.1 = p
    · have he : e = (p, ws) := by
        rcases List.mem_cons.mp hm with h1 | h1
        · exact h1.symm
        · exfalso
          apply hnd.1
          rw [hep]
          exact mem_keysOf_iff.mpr ⟨(p, ws), h1, rfl⟩
      have hblock : ((validNorm e.2).map fun w => (w, e.1)).countP
          (fun o => decide (o.2 = p) && P o.1) = (validNorm ws).countP P := by
        rw [List.countP_map, he]
        apply List.countP_congr
        intro w _
        simp
      have hrest : (occList pw).countP (fun o => decide (o.2 = p) && P o.1) = 0 := by
        rw [List.countP_eq_zero]
        intro o ho
        simp only [Bool.and_eq_true, decide_eq_true_eq]
        rintro ⟨h2, _⟩
        apply hnd.1
        rw [hep]
        have := mem_occList_pid ho
        unfold keysOf at this
        rw [← h2]
        exact this
      rw [hblock,
        show (List.map (fun e => List.map (fun w => (w, e.1)) (validNorm e.2)) pw).flatten
          = occList pw from rfl, hrest]
      omega
    · have h1 : (p, ws) ∈ pw := by
        rcases List.mem_cons.mp hm with h2 | h2
        · exact absurd (by rw [← h2]) hep
        · exact h2
      have hblock : ((validNorm e.2).map fun w => (w, e.1)).countP
          (fun o => decide (o.2 = p) && P o.1) = 0 := by
        rw [List.countP_map, List.countP_eq_zero]
        intro w _
        simp [hep]
      rw [hblock,
        show (List.map (fun e => List.map (fun w => (w, e.1)) (validNorm e.2)) pw).flatten
          = occList pw from rfl,
        ih p ws (by unfold PWKeysNodup keysOf; exact hnd.2) h1]
      omega

theorem keyVals_length (pw : PlayerWords) (x : String) :
    (keyVals (occList pw) x).length = totalOccs pw x := by
  unfold keyVals totalOccs
  rw [List.length_map, ← List.countP_eq_length_filter]

theorem slotCount_keyVals (l : List (String × String)) (x p : String) :
    slotCount (keyVals l x) p = l.countP fun o => decide (o.1 = x) && decide (o.2 = p) := by
  unfold slotCount keyVals
  rw [List.countP_map, List.countP_filter]
  apply List.countP_congr
  intro o _
  simp only [Function.comp, Bool.and_eq_true, decide_eq_true_eq]
  exact and_comm

theorem key_summand_eq (pw : PlayerWords) (cond : Nat → Bool) (p x : String) :
    (if cond (keyVals (occList pw) x).length then slotCount (keyVals (occList pw) x) p else 0)
      = (occList pw).countP fun o =>
          decide (o.1 = x) && (decide (o.2 = p) && cond (totalOccs pw o.1)) := by
  by_cases hc : cond (totalOccs pw x) = true
  · rw [if_pos (by rw [keyVals_length]; exact hc), slotCount_keyVals]
    apply List.countP_congr
    intro o _
    by_cases hox : o.1 = x
    · simp [hox, hc]
    · simp [hox]
  · rw [if_neg (by rw [keyVals_length]; exact hc), eq_comm, List.countP_eq_zero]
    intro o _
    simp only [Bool.and_eq_true, decide_eq_true_eq]
    rintro ⟨h1, _, h3⟩
    exact hc (h1 ▸ h3)

theorem keysOf_buildWordToPlayers_nodup (pw : PlayerWords) :
    (keysOf (buildWordToPlayers pw)).Nodup := by
  rw [buildWordToPlayers_eq]
  exact nodup_keysOf_addAll _ [] (by simp [keysOf])

theorem wmCount_eq_sum (cond : Nat → Bool) (p : String) (l : List (String × String)) :
    ∀ m : WordMap, (∀ e ∈ m, e.2 = keyVals l e.1) →
      wmCount cond m p =
        ((keysOf m).map fun x =>
          if cond (keyVals l x).length then slotCount (keyVals l x) p else 0).sum := by
  intro m
  induction m with
  | nil => intro _; rfl
  | cons e m ih =>
    intro hE
    have he : e.2 = keyVals l e.1 := hE e (List.mem_cons_self _ _)
    rw [wmCount_cons]
    unfold keysOf
    rw [List.map_cons, List.map_cons, List.sum_cons]
    unfold keysOf at ih
    rw [ih (fun x hx => hE x (List.mem_cons_of_mem e hx)), he]

/-- The central conversion: the per-entry tally over the built map equals a
count over the player's own normalized valid words, conditioned on the total
occurrence count of each word. -/
theorem wmCount_spec (cond : Nat → Bool) {pw : PlayerWords} {p : String} {ws : List String}
    (hnd : PWKeysNodup pw) (hm : (p, ws) ∈ pw) :
    wmCount cond (buildWordToPlayers pw) p
      = (validNorm ws).countP fun w => cond (totalOccs pw w) := by
  have hBE := buildWordToPlayers_eq pw
  have hE : ∀ e ∈ buildWordToPlayers pw, e.2 = keyVals (occList pw) e.1 := by
    intro e he
    exact entry_addAll (occList pw) (hBE ▸ he)
  rw [wmCount_eq_sum cond p (occList pw) _ hE]
  have hcov : ∀ o ∈ occList pw, o.1 ∈ keysOf (buildWordToPlayers pw) := by
    intro o ho
    rw [hBE]
    exact mem_keysOf_addAll ho
  rw [List.map_congr_left fun x _ => key_summand_eq pw cond p x,
    partition_countP _ _ (keysOf_buildWordToPlayers_nodup pw) _ hcov]
  exact countP_occList_player (fun w => cond (totalOccs pw w)) pw p ws hnd hm

/-! ## The score pipeline acts pointwise on the scores object -/

theorem map_pair_eta {β : Type} (l : List (String × β)) :
    (l.map fun e => (e.1, e.2)) = l := by
  induction l with
  | nil => rfl
  | cons e l ih => rw [List.map_cons, ih, Prod.mk.eta]

theorem updateScore_eq_map (sc : Scores) (pid : String) (f : ScoreData → ScoreData) :
    updateScore sc pid f = sc.map fun e => (e.1, if e.1 = pid then f e.2 else e.2) := by
  unfold updateScore
  apply List.map_congr_left
  intro e _
  by_cases h : e.1 = pid
  · rw [if_pos h, if_pos h]
  · rw [if_neg h, if_neg h]

theorem matchInner_eq (w : String) :
    ∀ (ps : List String) (sc : Scores),
      ps.foldl (fun sc pid =>
        updateScore sc pid fun d =>
          { d with score := d.score + 1, matchedWords := d.matchedWords ++ [w] }) sc
        = sc.map fun en => (en.1,
            ps.foldl (fun d pid =>
              if en.1 = pid then
                { d with score := d.score + 1, matchedWords := d.matchedWords ++ [w] }
              else d) en.2) := by
  intro ps
  induction ps with
  | nil =>
    intro sc
    exact (map_pair_eta sc).symm
  | cons pid ps ih =>
    intro sc
    rw [List.foldl_cons, ih, updateScore_eq_map, List.map_map]
    apply List.map_congr_left
    intro en _
    simp only [Function.comp]
    rw [List.foldl_cons]

theorem awardMatchPoints_eq :
    ∀ (m : WordMap) (sc : Scores),
      awardMatchPoints sc m = sc.map fun en =>
        (en.1, m.foldl (fun d e =>
          if 1 < e.2.length then
            e.2.foldl (fun d pid =>
              if en.1 = pid then
                { d with score := d.score + 1, matchedWords := d.matchedWords ++ [e.1] }
              else d) d
          else d) en.2) := by
  intro m
  induction m with
  | nil =>
    intro sc
    exact (map_pair_eta sc).symm
  | cons e m ih =>
    intro sc
    rw [show awardMatchPoints sc (e :: m) = awardMatchPoints (
        if 1 < e.2.length then
          e.2.foldl (fun sc pid =>
            updateScore sc pid fun d =>
              { d with score := d.score + 1, matchedWords := d.matchedWords ++ [e.1] }) sc
        else sc) m from rfl, ih]
    by_cases h : 1 < e.2.length
    · rw [if_pos h, matchInner_eq e.1 e.2 sc, List.map_map]
      apply List.map_congr_left
      intro en _
      simp only [Function.comp]
      rw [List.foldl_cons, if_pos h]
    · rw [if_neg h]
      apply List.map_congr_left
      intro en _
      rw [List.foldl_cons, if_neg h]

theorem awardMatchBonus_eq :
    ∀ (pw : PlayerWords) (sc : Scores) (m : WordMap),
      awardMatchBonus sc m pw = sc.map fun en =>
        (en.1, pw.foldl (fun d e =>
          if 0 < (validWords e.2).length then
            if (validWords e.2).all (fun w =>
                decide (1 < ((lookupKey m (normalizeWord w)).getD []).length)) then
              if en.1 = e.1 then { d with score := d.score + 1, bonusAwarded := true } else d
            else d
          else d) en.2) := by
  intro pw
  induction pw with
  | nil =>
    intro sc m
    exact (map_pair_eta sc).symm
  | cons e pw ih =>
    intro sc m
    rw [show awardMatchBonus sc m (e :: pw) = awardMatchBonus (
        if 0 < (validWords e.2).length then
          if (validWords e.2).all (fun w =>
              decide (1 < ((lookupKey m (normalizeWord w)).getD []).length)) then
            updateScore sc e.1 fun d => { d with score := d.score + 1, bonusAwarded := true }
          else sc
        else sc) m pw from rfl, ih]
    by_cases h1 : 0 < (validWords e.2).length
    · by_cases h2 : ((validWords e.2).all fun w =>
          decide (1 < ((lookupKey m (normalizeWord w)).getD []).length)) = true
      · rw [if_pos h1, if_pos h2, updateScore_eq_map, List.map_map]
        apply List.map_congr_left
        intro en _
        simp only [Function.comp]
        rw [List.foldl_cons, if_pos h1, if_pos h2]
      · rw [if_pos h1, if_neg h2]
        apply List.map_congr_left
        intro en _
        rw [List.foldl_cons, if_pos h1, if_neg h2]
    · rw [if_neg h1]
      apply List.map_congr_left
      intro en _
      rw [List.foldl_cons, if_neg h1]

theorem slotCount_cons (pid : String) (ps : List String) (p : String) :
    slotCount (pid :: ps) p = slotCount ps p + (if pid = p then 1 else 0) := by
  unfold slotCount
  rw [List.countP_cons]
  by_cases h : pid = p
  · rw [if_pos (by simp [h]), if_pos h]
  · rw [if_neg (by simp [h]), if_neg h]

theorem applyMatchOccs_value (p w : String) :
    ∀ (ps : List String) (d : ScoreData),
      ps.foldl (fun d pid =>
        if p = pid then
          { d with score := d.score + 1, matchedWords := d.matchedWords ++ [w] }
        else d) d
      = { d with
            score := d.score + slotCount ps p,
            matchedWords := d.matchedWords ++ List.replicate (slotCount ps p) w } := by
  intro ps
  induction ps with
  | nil =>
    intro d
    simp [slotCount]
  | cons pid ps ih =>
    intro d
    rw [List.foldl_cons]
    by_cases h : p = pid
    · rw [if_pos h, ih, slotCount_cons, if_pos h.symm]
      show ScoreData.mk ((d.score + 1) + slotCount ps p)
          ((d.matchedWords ++ [w]) ++ List.replicate (slotCount ps p) w) d.bonusAwarded = _
      rw [show (d.score + 1) + slotCount ps p = d.score + (slotCount ps p + 1) by omega,
        List.append_assoc, List.singleton_append, ← List.replicate_succ]
    · rw [if_neg h, ih, slotCount_cons, if_neg (fun hh => h hh.symm), Nat.add_zero]

theorem matchPointsFold_value (p : String) :
    ∀ (m : WordMap) (d : ScoreData),
      m.foldl (fun d e =>
        if 1 < e.2.length then
          e.2.foldl (fun d pid =>
            if p = pid then
              { d with score := d.score + 1, matchedWords := d.matchedWords ++ [e.1] }
            else d) d
        else d) d
      = { d with
            score := d.score + wmCount (fun n => decide (1 < n)) m p,
            matchedWords := d.matchedWords ++ wmMatchedM m p } := by
  intro m
  induction m with
  | nil =>
    intro d
    show d = ScoreData.mk (d.score + wmCount (fun n => decide (1 < n)) [] p)
      (d.matchedWords ++ wmMatchedM [] p) d.bonusAwarded
    show d = ScoreData.mk (d.score + 0) (d.matchedWords ++ []) d.bonusAwarded
    rw [Nat.add_zero, List.append_nil]
  | cons e m ih =>
    intro d
    rw [List.foldl_cons, wmCount_cons, wmMatchedM_cons]
    by_cases h : 1 < e.2.length
    · rw [if_pos h, applyMatchOccs_value p e.1 e.2 d, ih,
        if_pos (by simpa using h), if_pos (by simpa using h)]
      show ScoreData.mk ((d.score + slotCount e.2 p) + wmCount (fun n => decide (1 < n)) m p)
          ((d.matchedWords ++ List.replicate (slotCount e.2 p) e.1) ++ wmMatchedM m p)
          d.bonusAwarded = _
      rw [show (d.score + slotCount e.2 p) + wmCount (fun n => decide (1 < n)) m p
          = d.score + (slotCount e.2 p + wmCount (fun n => decide (1 < n)) m p) by omega,
        List.append_assoc]
    · rw [if_neg h, ih, if_neg (by simpa using h), if_neg (by simpa using h)]
      rw [Nat.zero_add, List.nil_append]

theorem foldl_noop_of_ne {step : ScoreData → (String × List String) → ScoreData} {p : String}
    (hstep : ∀ e d', e.1 ≠ p → step d' e = d') :
    ∀ (L : PlayerWords) (d : ScoreData), (∀ e ∈ L, e.1 ≠ p) → L.foldl step d = d := by
  intro L
  induction L with
  | nil => intro d _; rfl
  | cons e L ih =>
    intro d hL
    rw [List.foldl_cons, hstep e d (hL e (List.mem_cons_self _ _))]
    exact ih d fun x hx => hL x (List.mem_cons_of_mem e hx)

theorem foldl_single_key {step : ScoreData → (String × List String) → ScoreData} {p : String}
    (hstep : ∀ e d', e.1 ≠ p → step d' e = d') :
    ∀ (L : PlayerWords) (d : ScoreData) (ws : List String),
      (keysOf L).Nodup → (p, ws) ∈ L → L.foldl step d = step d (p, ws) := by
  intro L
  induction L with
  | nil =>
    intro d ws _ hm
    cases hm
  | cons e L ih =>
    intro d ws hnd hm
    unfold keysOf at hnd
    rw [List.map_cons, List.nodup_cons] at hnd
    by_cases hep : e.1 = p
    · have he : e = (p, ws) := by
        rcases List.mem_cons.mp hm with h1 | h1
        · exact h1.symm
        · exfalso
          apply hnd.1
          rw [hep]
          exact List.mem_map.mpr ⟨(p, ws), h1, rfl⟩
      rw [List.foldl_cons, he]
      apply foldl_noop_of_ne hstep
      intro x hx
      intro hxp
      apply hnd.1
      rw [hep]
      rw [← hxp]
      exact List.mem_map.mpr ⟨x, hx, rfl⟩
    · have h1 : (p, ws) ∈ L := by
        rcases List.mem_cons.mp hm with h2 | h2
        · exact absurd (by rw [← h2]) hep
        · exact h2
      rw [List.foldl_cons, hstep e d hep]
      exact ih d ws hnd.2 h1

theorem lookupKey_initScores (pw : PlayerWords) (p : String) :
    lookupKey (initScores pw) p
      = (lookupKey pw p).map fun _ => (⟨0, [], false⟩ : ScoreData) := by
  unfold initScores
  exact lookupKey_map_entry pw (fun _ _ => (⟨0, [], false⟩ : ScoreData)) p

theorem matchPointsFold_val (m : WordMap) (p : String) :
    matchPointsFold m p ⟨0, [], false⟩
      = ⟨wmCount (fun n => decide (1 < n)) m p, wmMatchedM m p, false⟩ := by
  have h : matchPointsFold m p ⟨0, [], false⟩
      = { score := 0 + wmCount (fun n => decide (1 < n)) m p,
          matchedWords := ([] : List String) ++ wmMatchedM m p,
          bonusAwarded := false } :=
    matchPointsFold_value p m ⟨0, [], false⟩
  rw [h, Nat.zero_add, List.nil_append]

theorem matchBonusFold_value {pw : PlayerWords} {p : String} {ws : List String}
    (hnd : PWKeysNodup pw) (hm : (p, ws) ∈ pw) (m : WordMap) (d : ScoreData) :
    matchBonusFold m pw p d =
      if 0 < (validWords ws).length then
        if (validWords ws).all (fun w =>
            decide (1 < ((lookupKey m (normalizeWord w)).getD []).length)) then
          { d with score := d.score + 1, bonusAwarded := true }
        else d
      else d := by
  have hstep : ∀ (e : String × List String) (d' : ScoreData), e.1 ≠ p →
      (if 0 < (validWords e.2).length then
        if (validWords e.2).all (fun w =>
            decide (1 < ((lookupKey m (normalizeWord w)).getD []).length)) then
          if p = e.1 then { d' with score := d'.score + 1, bonusAwarded := true } else d'
        else d'
      else d') = d' := by
    intro e d' he
    rw [if_neg (fun h : p = e.1 => he h.symm)]
    split
    · split
      · rfl
      · rfl
    · rfl
  have h := foldl_single_key hstep pw d ws hnd hm
  have h2 : matchBonusFold m pw p d =
      if 0 < (validWords ws).length then
        if (validWords ws).all (fun w =>
            decide (1 < ((lookupKey m (normalizeWord w)).getD []).length)) then
          if p = p then { d with score := d.score + 1, bonusAwarded := true } else d
        else d
      else d := h
  rw [h2, if_pos rfl]

theorem matchBase_eq {pw : PlayerWords} {p : String} {ws : List String}
    (hnd : PWKeysNodup pw) (hm : (p, ws) ∈ pw) :
    wmCount (fun n => decide (1 < n)) (buildWordToPlayers pw) p = matchBaseScore pw ws := by
  rw [wmCount_spec (fun n => decide (1 < n)) hnd hm]
  unfold matchBaseScore
  apply List.countP_congr
  intro w _
  simp only [decide_eq_true_eq]
  omega

theorem allMatched_eq (pw : PlayerWords) (ws : List String) :
    ((validWords ws).all fun w =>
        decide (1 < ((lookupKey (buildWordToPlayers pw) (normalizeWord w)).getD []).length))
      = ((validWords ws).all fun w => decide (2 ≤ totalOccs pw (normalizeWord w))) := by
  apply congrArg (List.all (validWords ws))
  funext w
  rw [wordSlots_eq pw (normalizeWord w)]
  exact decide_eq_decide.mpr (by omega)

/-- Full characterization of one player's match-round result: the score is
one point per own valid occurrence of a word with at least two total
occurrences, plus the bonus when every valid word has at least two total
occurrences. -/
theorem calcMatch_value {pw : PlayerWords} {p : String} {ws : List String}
    (hnd : PWKeysNodup pw) (hm : (p, ws) ∈ pw) :
    lookupKey (calculateMatchRoundScores pw) p = some
      { score := matchBaseScore pw ws + (if matchBonusOf pw ws then 1 else 0),
        matchedWords := wmMatchedM (buildWordToPlayers pw) p,
        bonusAwarded := matchBonusOf pw ws } := by
  have h0 : calculateMatchRoundScores pw
      = ((initScores pw).map fun en =>
          (en.1, matchPointsFold (buildWordToPlayers pw) en.1 en.2)).map
          fun en => (en.1, matchBonusFold (buildWordToPlayers pw) pw en.1 en.2) := by
    rw [show calculateMatchRoundScores pw
        = awardMatchBonus (awardMatchPoints (initScores pw) (buildWordToPlayers pw))
            (buildWordToPlayers pw) pw from rfl]
    rw [show awardMatchPoints (initScores pw) (buildWordToPlayers pw)
        = (initScores pw).map fun en =>
            (en.1, matchPointsFold (buildWordToPlayers pw) en.1 en.2) from
      awardMatchPoints_eq (buildWordToPlayers pw) (initScores pw)]
    exact awardMatchBonus_eq pw _ (buildWordToPlayers pw)
  rw [h0, lookupKey_map_entry, lookupKey_map_entry, lookupKey_initScores,
    lookupKey_of_mem_nodup hnd hm]
  simp only [Option.map_some']
  rw [matchPointsFold_val, matchBonusFold_value hnd hm, Option.some_inj]
  unfold matchBonusOf
  rw [allMatched_eq]
  by_cases h1 : validWords ws ≠ []
  · rw [if_pos (List.length_pos.mpr h1)]
    by_cases h2 : ((validWords ws).all fun w => decide (2 ≤ totalOccs pw (normalizeWord w))) = true
    · rw [if_pos h2]
      rw [show (decide (validWords ws ≠ []) && (validWords ws).all fun w =>
          decide (2 ≤ totalOccs pw (normalizeWord w))) = true by
        rw [Bool.and_eq_true]
        exact ⟨decide_eq_true h1, h2⟩]
      rw [if_pos rfl, matchBase_eq hnd hm]
    · rw [if_neg h2]
      rw [show (decide (validWords ws ≠ []) && (validWords ws).all fun w =>
          decide (2 ≤ totalOccs pw (normalizeWord w))) = false by
        rw [Bool.and_eq_false_iff]
        exact Or.inr (by simpa using h2)]
      rw [if_neg (by simp), matchBase_eq hnd hm, Nat.add_zero]
  · have hnil : validWords ws = [] := not_not.mp h1
    rw [if_neg (show ¬0 < (validWords ws).length by rw [hnil]; simp)]
    rw [show (decide (validWords ws ≠ []) && (validWords ws).all fun w =>
        decide (2 ≤ totalOccs pw (normalizeWord w))) = false by
      rw [Bool.and_eq_false_iff]
      exact Or.inl (by simpa using h1)]
    rw [if_neg (by simp), matchBase_eq hnd hm, Nat.add_zero]

theorem unmatchInner_eq (w : String) :
    ∀ (ps : List String) (sc : Scores),
      ps.foldl (fun sc pid =>
        updateScore sc pid fun d =>
          { d with matchedWords := d.matchedWords ++ [w] }) sc
        = sc.map fun en => (en.1,
            ps.foldl (fun d pid =>
              if en.1 = pid then { d with matchedWords := d.matchedWords ++ [w] } else d)
              en.2) := by
  intro ps
  induction ps with
  | nil =>
    intro sc
    exact (map_pair_eta sc).symm
  | cons pid ps ih =>
    intro sc
    rw [List.foldl_cons, ih, updateScore_eq_map, List.map_map]
    apply List.map_congr_left
    intro en _
    simp only [Function.comp]
    rw [List.foldl_cons]

theorem awardUnmatchPoints_eq :
    ∀ (m : WordMap) (sc : Scores),
      awardUnmatchPoints sc m = sc.map fun en =>
        (en.1, m.foldl (fun d e =>
          if e.2.length = 1 then
            (if en.1 = e.2.headD "" then { d with score := d.score + 1 } else d)
          else
            e.2.foldl (fun d pid =>
              if en.1 = pid then { d with matchedWords := d.matchedWords ++ [e.1] } else d)
              d) en.2) := by
  intro m
  induction m with
  | nil =>
    intro sc
    exact (map_pair_eta sc).symm
  | cons e m ih =>
    intro sc
    rw [show awardUnmatchPoints sc (e :: m) = awardUnmatchPoints (
        if e.2.length = 1 then
          updateScore sc (e.2.headD "") fun d => { d with score := d.score + 1 }
        else
          e.2.foldl (fun sc pid =>
            updateScore sc pid fun d =>
              { d with matchedWords := d.matchedWords ++ [e.1] }) sc) m from rfl, ih]
    by_cases h : e.2.length = 1
    · rw [if_pos h, updateScore_eq_map, List.map_map]
      apply List.map_congr_left
      intro en _
      simp only [Function.comp]
      rw [List.foldl_cons, if_pos h]
    · rw [if_neg h, unmatchInner_eq e.1 e.2 sc, List.map_map]
      apply List.map_congr_left
      intro en _
      simp only [Function.comp]
      rw [List.foldl_cons, if_neg h]

theorem awardUnmatchBonus_eq :
    ∀ (pw : PlayerWords) (sc : Scores) (m : WordMap),
      awardUnmatchBonus sc m pw = sc.map fun en =>
        (en.1, pw.foldl (fun d e =>
          if 0 < (validWords e.2).length then
            if (validWords e.2).all (fun w =>
                decide (((lookupKey m (normalizeWord w)).getD []).length = 1)) then
              if en.1 = e.1 then { d with score := d.score + 1, bonusAwarded := true } else d
            else d
          else d) en.2) := by
  intro pw
  induction pw with
  | nil =>
    intro sc m
    exact (map_pair_eta sc).symm
  | cons e pw ih =>
    intro sc m
    rw [show awardUnmatchBonus sc m (e :: pw) = awardUnmatchBonus (
        if 0 < (validWords e.2).length then
          if (validWords e.2).all (fun w =>
              decide (((lookupKey m (normalizeWord w)).getD []).length = 1)) then
            updateScore sc e.1 fun d => { d with score := d.score + 1, bonusAwarded := true }
          else sc
        else sc) m pw from rfl, ih]
    by_cases h1 : 0 < (validWords e.2).length
    · by_cases h2 : ((validWords e.2).all fun w =>
          decide (((lookupKey m (normalizeWord w)).getD []).length = 1)) = true
      · rw [if_pos h1, if_pos h2, updateScore_eq_map, List.map_map]
        apply List.map_congr_left
        intro en _
        simp only [Function.comp]
        rw [List.foldl_cons, if_pos h1, if_pos h2]
      · rw [if_pos h1, if_neg h2]
        apply List.map_congr_left
        intro en _
        rw [List.foldl_cons, if_pos h1, if_neg h2]
    · rw [if_neg h1]
      apply List.map_congr_left
      intro en _
      rw [List.foldl_cons, if_neg h1]

theorem applyUnmatchOccs_value (p w : String) :
    ∀ (ps : List String) (d : ScoreData),
      ps.foldl (fun d pid =>
        if p = pid then { d with matchedWords := d.matchedWords ++ [w] } else d) d
      = { d with matchedWords := d.matchedWords ++ List.replicate (slotCount ps p) w } := by
  intro ps
  induction ps with
  | nil =>
    intro d
    simp [slotCount]
  | cons pid ps ih =>
    intro d
    rw [List.foldl_cons]
    by_cases h : p = pid
    · rw [if_pos h, ih, slotCount_cons, if_pos h.symm]
      show ScoreData.mk d.score
          ((d.matchedWords ++ [w]) ++ List.replicate (slotCount ps p) w) d.bonusAwarded = _
      rw [List.append_assoc, List.singleton_append, ← List.replicate_succ]
    · rw [if_neg h, ih, slotCount_cons, if_neg (fun hh => h hh.symm), Nat.add_zero]

theorem unmatchPointsFold_value (p : String) :
    ∀ (m : WordMap) (d : ScoreData),
      m.foldl (fun d e =>
        if e.2.length = 1 then
          (if p = e.2.headD "" then { d with score := d.score + 1 } else d)
        else
          e.2.foldl (fun d pid =>
            if p = pid then { d with matchedWords := d.matchedWords ++ [e.1] } else d) d) d
      = { d with
            score := d.score + wmCount (fun n => decide (n = 1)) m p,
            matchedWords := d.matchedWords ++ wmMatchedU m p } := by
  intro m
  induction m with
  | nil =>
    intro d
    show d = ScoreData.mk (d.score + 0) (d.matchedWords ++ []) d.bonusAwarded
    rw [Nat.add_zero, List.append_nil]
  | cons e m ih =>
    intro d
    rw [List.foldl_cons, wmCount_cons, wmMatchedU_cons]
    by_cases h : e.2.length = 1
    · obtain ⟨a, ha⟩ := List.length_eq_one.mp h
      rw [ha]
      rw [if_pos (show ([a] : List String).length = 1 from rfl)]
      rw [if_pos (show (decide (([a] : List String).length = 1)) = true from rfl)]
      rw [if_pos (show ([a] : List String).length = 1 from rfl)]
      have hslot : slotCount [a] p = if p = a then 1 else 0 := by
        rw [show ([a] : List String) = a :: [] from rfl, slotCount_cons]
        by_cases hpa : a = p
        · rw [if_pos hpa, if_pos hpa.symm]
          rfl
        · rw [if_neg hpa, if_neg (fun hh => hpa hh.symm)]
          rfl
      rw [show ([a] : List String).headD "" = a from rfl, hslot]
      by_cases hpa : p = a
      · rw [if_pos hpa, if_pos hpa, ih]
        rw [show (d.score + 1) + wmCount (fun n => decide (n = 1)) m p
            = d.score + (1 + wmCount (fun n => decide (n = 1)) m p) by omega,
          List.nil_append]
      · rw [if_neg hpa, if_neg hpa, ih, Nat.zero_add, List.nil_append]
    · rw [if_neg h, if_neg (by simpa using h), if_neg h,
        applyUnmatchOccs_value p e.1 e.2 d, ih]
      show ScoreData.mk (d.score + wmCount (fun n => decide (n = 1)) m p)
          ((d.matchedWords ++ List.replicate (slotCount e.2 p) e.1) ++ wmMatchedU m p)
          d.bonusAwarded = _
      rw [Nat.zero_add, List.append_assoc]

theorem unmatchPointsFold_val (m : WordMap) (p : String) :
    unmatchPointsFold m p ⟨0, [], false⟩
      = ⟨wmCount (fun n => decide (n = 1)) m p, wmMatchedU m p, false⟩ := by
  have h : unmatchPointsFold m p ⟨0, [], false⟩
      = { score := 0 + wmCount (fun n => decide (n = 1)) m p,
          matchedWords := ([] : List String) ++ wmMatchedU m p,
          bonusAwarded := false } :=
    unmatchPointsFold_value p m ⟨0, [], false⟩
  rw [h, Nat.zero_add, List.nil_append]

theorem unmatchBonusFold_value {pw : PlayerWords} {p : String} {ws : List String}
    (hnd : PWKeysNodup pw) (hm : (p, ws) ∈ pw) (m : WordMap) (d : ScoreData) :
    unmatchBonusFold m pw p d =
      if 0 < (validWords ws).length then
        if (validWords ws).all (fun w =>
            decide (((lookupKey m (normalizeWord w)).getD []).length = 1)) then
          { d with score := d.score + 1, bonusAwarded := true }
        else d
      else d := by
  have hstep : ∀ (e : String × List String) (d' : ScoreData), e.1 ≠ p →
      (if 0 < (validWords e.2).length then
        if (validWords e.2).all (fun w =>
            decide (((lookupKey m (normalizeWord w)).getD []).length = 1)) then
          if p = e.1 then { d' with score := d'.score + 1, bonusAwarded := true } else d'
        else d'
      else d') = d' := by
    intro e d' he
    rw [if_neg (fun h : p = e.1 => he h.symm)]
    split
    · split
      · rfl
      · rfl
    · rfl
  have h := foldl_single_key hstep pw d ws hnd hm
  have h2 : unmatchBonusFold m pw p d =
      if 0 < (validWords ws).length then
        if (validWords ws).all (fun w =>
            decide (((lookupKey m (normalizeWord w)).getD []).length = 1)) then
          if p = p then { d with score := d.score + 1, bonusAwarded := true } else d
        else d
      else d := h
  rw [h2, if_pos rfl]

theorem unmatchBase_eq {pw : PlayerWords} {p : String} {ws : List String}
    (hnd : PWKeysNodup pw) (hm : (p, ws) ∈ pw) :
    wmCount (fun n => decide (n = 1)) (buildWordToPlayers pw) p = unmatchBaseScore pw ws := by
  rw [wmCount_spec (fun n => decide (n = 1)) hnd hm]
  rfl

theorem allUnique_eq (pw : PlayerWords) (ws : List String) :
    ((validWords ws).all fun w =>
        decide (((lookupKey (buildWordToPlayers pw) (normalizeWord w)).getD []).length = 1))
      = ((validWords ws).all fun w => decide (totalOccs pw (normalizeWord w) = 1)) := by
  apply congrArg (List.all (validWords ws))
  funext w
  rw [wordSlots_eq pw (normalizeWord w)]

/-- Full characterization of one player's unmatch-round result: the score is
one point per own valid occurrence of a word with exactly one total
occurrence, plus the bonus when every valid word has exactly one total
occurrence; shared words land in `matchedWords`. -/
theorem calcUnmatch_value {pw : PlayerWords} {p : String} {ws : List String}
    (hnd : PWKeysNodup pw) (hm : (p, ws) ∈ pw) :
    lookupKey (calculateUnmatchRoundScores pw) p = some
      { score := unmatchBaseScore pw ws + (if unmatchBonusOf pw ws then 1 else 0),
        matchedWords := wmMatchedU (buildWordToPlayers pw) p,
        bonusAwarded := unmatchBonusOf pw ws } := by
  have h0 : calculateUnmatchRoundScores pw
      = ((initScores pw).map fun en =>
          (en.1, unmatchPointsFold (buildWordToPlayers pw) en.1 en.2)).map
          fun en => (en.1, unmatchBonusFold (buildWordToPlayers pw) pw en.1 en.2) := by
    rw [show calculateUnmatchRoundScores pw
        = awardUnmatchBonus (awardUnmatchPoints (initScores pw) (buildWordToPlayers pw))
            (buildWordToPlayers pw) pw from rfl]
    rw [show awardUnmatchPoints (initScores pw) (buildWordToPlayers pw)
        = (initScores pw).map fun en =>
            (en.1, unmatchPointsFold (buildWordToPlayers pw) en.1 en.2) from
      awardUnmatchPoints_eq (buildWordToPlayers pw) (initScores pw)]
    exact awardUnmatchBonus_eq pw _ (buildWordToPlayers pw)
  rw [h0, lookupKey_map_entry, lookupKey_map_entry, lookupKey_initScores,
    lookupKey_of_mem_nodup hnd hm]
  simp only [Option.map_some']
  rw [unmatchPointsFold_val, unmatchBonusFold_value hnd hm, Option.some_inj]
  unfold unmatchBonusOf
  rw [allUnique_eq]
  by_cases h1 : validWords ws ≠ []
  · rw [if_pos (List.length_pos.mpr h1)]
    by_cases h2 : ((validWords ws).all fun w => decide (totalOccs pw (normalizeWord w) = 1)) = true
    · rw [if_pos h2]
      rw [show (decide (validWords ws ≠ []) && (validWords ws).all fun w =>
          decide (totalOccs pw (normalizeWord w) = 1)) = true by
        rw [Bool.and_eq_true]
        exact ⟨decide_eq_true h1, h2⟩]
      rw [if_pos rfl, unmatchBase_eq hnd hm]
    · rw [if_neg h2]
      rw [show (decide (validWords ws ≠ []) && (validWords ws).all fun w =>
          decide (totalOccs pw (normalizeWord w) = 1)) = false by
        rw [Bool.and_eq_false_iff]
        exact Or.inr (by simpa using h2)]
      rw [if_neg (by simp), unmatchBase_eq hnd hm, Nat.add_zero]
  · have hnil : validWords ws = [] := not_not.mp h1
    rw [if_neg (show ¬0 < (validWords ws).length by rw [hnil]; simp)]
    rw [show (decide (validWords ws ≠ []) && (validWords ws).all fun w =>
        decide (totalOccs pw (normalizeWord w) = 1)) = false by
      rw [Bool.and_eq_false_iff]
      exact Or.inl (by simpa using h1)]
    rw [if_neg (by simp), unmatchBase_eq hnd hm, Nat.add_zero]

/-! ## Claims C1, C2, C3, C10 about the scorer -/

theorem validNorm_eq_nil {ws : List String} (h : validWords ws = []) :
    validNorm ws = [] := by
  have hl := length_validNorm ws
  rw [h] at hl
  exact List.length_eq_zero.mp hl

/-- C1, corrected.  The match-round scorer awards each player +1 per
occurrence, in their own submission list, of every normalized word whose
total number of occurrences across all players' lists is at least two
(occurrences contributed by the same player count); a word with exactly one
total occurrence contributes 0.  The only other score contribution is the
+1 bonus reported in `bonusAwarded`.  (The original claim required the word
to be shared by two or more distinct players; see the counterexample.) -/
theorem claim_C1_amended (pw : PlayerWords) (p : String) (ws : List String)
    (hnd : PWKeysNodup pw) (hm : (p, ws) ∈ pw) :
    scoreAt (calculateMatchRoundScores pw) p
      = matchBaseScore pw ws
        + (if bonusAt (calculateMatchRoundScores pw) p then 1 else 0) := by
  unfold scoreAt bonusAt
  rw [calcMatch_value hnd hm]
  rfl

/-- C1, counterexample to the original claim: with the single input
`{p1: ["cat", "cat"]}`, the word "cat" is submitted by only one player, so
the claim (stated via the number of distinct submitters) predicts it
contributes 0 points; the code counts its two occurrence slots and awards
+1 per own occurrence (and the bonus), so p1 scores 3. -/
theorem claim_C1_counterexample : ¬ c1SpecHolds [("p1", ["cat", "cat"])] := by
  unfold c1SpecHolds
  decide

/-- Witness for `claim_C1_amended` at a concrete input. -/
theorem claim_C1_amended_witness :
    scoreAt (calculateMatchRoundScores [("p1", ["Cat ", "dog"]), ("p2", ["cat"])]) "p1"
      = matchBaseScore [("p1", ["Cat ", "dog"]), ("p2", ["cat"])] ["Cat ", "dog"]
        + (if bonusAt (calculateMatchRoundScores
            [("p1", ["Cat ", "dog"]), ("p2", ["cat"])]) "p1" then 1 else 0) :=
  claim_C1_amended [("p1", ["Cat ", "dog"]), ("p2", ["cat"])] "p1" ["Cat ", "dog"]
    (by decide) (by decide)

/-- C3, corrected.  The bonus flag is true iff the player has at least one
valid (non-empty after trimming) word and every valid word satisfies the
round's occurrence-count predicate: at least two total occurrences of its
normalized form (match round), exactly one total occurrence (unmatch round).
When true the bonus adds exactly +1; a player whose words are all empty gets
score 0 and no bonus in both rounds.  (The original claim's predicates
"matched by another player" / "unique to that player" fail on duplicated
words within one player's own list; see the counterexample.) -/
theorem claim_C3_amended (pw : PlayerWords) (p : String) (ws : List String)
    (hnd : PWKeysNodup pw) (hm : (p, ws) ∈ pw) :
    (bonusAt (calculateMatchRoundScores pw) p = true ↔
      (validWords ws ≠ [] ∧ ∀ w ∈ validWords ws, 2 ≤ totalOccs pw (normalizeWord w))) ∧
    (bonusAt (calculateUnmatchRoundScores pw) p = true ↔
      (validWords ws ≠ [] ∧ ∀ w ∈ validWords ws, totalOccs pw (normalizeWord w) = 1)) ∧
    (bonusAt (calculateMatchRoundScores pw) p = true →
      scoreAt (calculateMatchRoundScores pw) p = matchBaseScore pw ws + 1) ∧
    (bonusAt (calculateUnmatchRoundScores pw) p = true →
      scoreAt (calculateUnmatchRoundScores pw) p = unmatchBaseScore pw ws + 1) ∧
    (validWords ws = [] →
      scoreAt (calculateMatchRoundScores pw) p = 0 ∧
      bonusAt (calculateMatchRoundScores pw) p = false ∧
      scoreAt (calculateUnmatchRoundScores pw) p = 0 ∧
      bonusAt (calculateUnmatchRoundScores pw) p = false) := by
  have hs1 := claim_C1_amended pw p ws hnd hm
  have hbm : bonusAt (calculateMatchRoundScores pw) p = matchBonusOf pw ws := by
    unfold bonusAt
    rw [calcMatch_value hnd hm]
    rfl
  have hbu : bonusAt (calculateUnmatchRoundScores pw) p = unmatchBonusOf pw ws := by
    unfold bonusAt
    rw [calcUnmatch_value hnd hm]
    rfl
  have hsu : scoreAt (calculateUnmatchRoundScores pw) p
      = unmatchBaseScore pw ws
        + (if bonusAt (calculateUnmatchRoundScores pw) p then 1 else 0) := by
    unfold scoreAt bonusAt
    rw [calcUnmatch_value hnd hm]
    rfl
  refine ⟨?_, ?_, ?_, ?_, ?_⟩
  · rw [hbm]
    unfold matchBonusOf
    rw [Bool.and_eq_true, List.all_eq_true]
    simp only [decide_eq_true_eq]
  · rw [hbu]
    unfold unmatchBonusOf
    rw [Bool.and_eq_true, List.all_eq_true]
    simp only [decide_eq_true_eq]
  · intro hb
    rw [hs1, hb, if_pos rfl]
  · intro hb
    rw [hsu, hb, if_pos rfl]
  · intro hv
    have hbm2 : matchBonusOf pw ws = false := by
      unfold matchBonusOf
      rw [Bool.and_eq_false_iff]
      exact Or.inl (by simp [hv])
    have hbu2 : unmatchBonusOf pw ws = false := by
      unfold unmatchBonusOf
      rw [Bool.and_eq_false_iff]
      exact Or.inl (by simp [hv])
    have hbase1 : matchBaseScore pw ws = 0 := by
      unfold matchBaseScore
      rw [validNorm_eq_nil hv]
      rfl
    have hbase2 : unmatchBaseScore pw ws = 0 := by
      unfold unmatchBaseScore
      rw [validNorm_eq_nil hv]
      rfl
    refine ⟨?_, ?_, ?_, ?_⟩
    · rw [hs1, hbm, hbm2, hbase1]
      simp
    · rw [hbm, hbm2]
    · rw [hsu, hbu, hbu2, hbase2]
      simp
    · rw [hbu, hbu2]

/-- C3, counterexample to the original claim: with input
`{p1: ["cat", "cat"]}` the match-round bonus is awarded by the code (both
occurrence slots make `wordToPlayers["cat"].length > 1`) even though no
other player matched "cat", contradicting the claimed biconditional. -/
theorem claim_C3_counterexample : ¬ c3SpecHolds [("p1", ["cat", "cat"])] := by
  unfold c3SpecHolds
  decide

/-- Witness for `claim_C3_amended` at a concrete input. -/
theorem claim_C3_amended_witness :
    (bonusAt (calculateMatchRoundScores [("p1", ["cat"]), ("p2", ["cat"])]) "p1" = true ↔
      (validWords ["cat"] ≠ [] ∧ ∀ w ∈ validWords ["cat"],
        2 ≤ totalOccs [("p1", ["cat"]), ("p2", ["cat"])] (normalizeWord w))) ∧
    (bonusAt (calculateUnmatchRoundScores [("p1", ["cat"]), ("p2", ["cat"])]) "p1" = true ↔
      (validWords ["cat"] ≠ [] ∧ ∀ w ∈ validWords ["cat"],
        totalOccs [("p1", ["cat"]), ("p2", ["cat"])] (normalizeWord w) = 1)) ∧
    (bonusAt (calculateMatchRoundScores [("p1", ["cat"]), ("p2", ["cat"])]) "p1" = true →
      scoreAt (calculateMatchRoundScores [("p1", ["cat"]), ("p2", ["cat"])]) "p1"
        = matchBaseScore [("p1", ["cat"]), ("p2", ["cat"])] ["cat"] + 1) ∧
    (bonusAt (calculateUnmatchRoundScores [("p1", ["cat"]), ("p2", ["cat"])]) "p1" = true →
      scoreAt (calculateUnmatchRoundScores [("p1", ["cat"]), ("p2", ["cat"])]) "p1"
        = unmatchBaseScore [("p1", ["cat"]), ("p2", ["cat"])] ["cat"] + 1) ∧
    (validWords ["cat"] = [] →
      scoreAt (calculateMatchRoundScores [("p1", ["cat"]), ("p2", ["cat"])]) "p1" = 0 ∧
      bonusAt (calculateMatchRoundScores [("p1", ["cat"]), ("p2", ["cat"])]) "p1" = false ∧
      scoreAt (calculateUnmatchRoundScores [("p1", ["cat"]), ("p2", ["cat"])]) "p1" = 0 ∧
      bonusAt (calculateUnmatchRoundScores [("p1", ["cat"]), ("p2", ["cat"])]) "p1" = false) :=
  claim_C3_amended [("p1", ["cat"]), ("p2", ["cat"])] "p1" ["cat"] (by decide) (by decide)

theorem length_wmMatchedU (p : String) :
    ∀ m : WordMap, (wmMatchedU m p).length = wmCount (fun n => !(decide (n = 1))) m p := by
  intro m
  induction m with
  | nil => rfl
  | cons e m ih =>
    rw [wmMatchedU_cons, wmCount_cons, List.length_append, ih]
    congr 1
    by_cases h : e.2.length = 1
    · rw [if_pos h, if_neg (by simp [h])]
      rfl
    · rw [if_neg h, if_pos (by simp [h]), List.length_replicate]

theorem mem_wmMatchedU_iff (p w : String) :
    ∀ m : WordMap,
      (w ∈ wmMatchedU m p ↔ ∃ e ∈ m, e.1 = w ∧ e.2.length ≠ 1 ∧ 0 < slotCount e.2 p) := by
  intro m
  induction m with
  | nil =>
    simp [wmMatchedU]
  | cons e m ih =>
    rw [wmMatchedU_cons, List.mem_append, ih]
    constructor
    · intro hmem
      rcases hmem with hmem | hmem
      · by_cases h : e.2.length = 1
        · rw [if_pos h] at hmem
          cases hmem
        · rw [if_neg h] at hmem
          rw [List.mem_replicate] at hmem
          exact ⟨e, List.mem_cons_self _ _, hmem.2.symm, h, Nat.pos_of_ne_zero hmem.1⟩
      · obtain ⟨e', he', rest⟩ := hmem
        exact ⟨e', List.mem_cons_of_mem e he', rest⟩
    · rintro ⟨e', he', h1, h2, h3⟩
      rcases List.mem_cons.mp he' with he2 | he2
      · subst he2
        left
        rw [if_neg h2, List.mem_replicate]
        exact ⟨Nat.pos_iff_ne_zero.mp h3, h1.symm⟩
      · right
        exact ⟨e', he2, h1, h2, h3⟩

theorem occ_mem_occList {pw : PlayerWords} {p : String} {ws : List String} {w : String}
    (hm : (p, ws) ∈ pw) (hw : w ∈ validNorm ws) : (w, p) ∈ occList pw := by
  unfold occList
  rw [List.mem_flatten]
  exact ⟨(validNorm ws).map (fun w => (w, p)),
    List.mem_map.mpr ⟨(p, ws), hm, rfl⟩, List.mem_map.mpr ⟨w, hw, rfl⟩⟩

theorem mem_matchedU {pw : PlayerWords} {p : String} {ws : List String}
    (hnd : PWKeysNodup pw) (hm : (p, ws) ∈ pw) (w : String) :
    w ∈ wmMatchedU (buildWordToPlayers pw) p ↔ (w ∈ validNorm ws ∧ 2 ≤ totalOccs pw w) := by
  rw [mem_wmMatchedU_iff]
  constructor
  · rintro ⟨e, heM, hew, hlen, hslot⟩
    have hE : e.2 = keyVals (occList pw) e.1 :=
      entry_addAll (occList pw) ((buildWordToPlayers_eq pw) ▸ heM)
    rw [hew] at hE
    have hlen2 : e.2.length = totalOccs pw w := by
      rw [hE, keyVals_length]
    have hslot2 : slotCount e.2 p = (validNorm ws).countP fun x => decide (x = w) := by
      rw [hE, slotCount_keyVals,
        ← countP_occList_player (fun x => decide (x = w)) pw p ws hnd hm]
      apply List.countP_congr
      intro o _
      simp only [Bool.and_eq_true]
      exact and_comm
    constructor
    · rw [hslot2] at hslot
      obtain ⟨x, hx, hxw⟩ := List.countP_pos_iff.mp hslot
      rw [decide_eq_true_eq] at hxw
      exact hxw ▸ hx
    · have hle : slotCount e.2 p ≤ e.2.length := List.countP_le_length _
      omega
  · rintro ⟨hw, ht⟩
    have hoc : (w, p) ∈ occList pw := occ_mem_occList hm hw
    have hkey : w ∈ keysOf (buildWordToPlayers pw) := by
      rw [buildWordToPlayers_eq]
      exact mem_keysOf_addAll hoc
    rw [← lookupKey_isSome_iff] at hkey
    obtain ⟨ps, hps⟩ := Option.isSome_iff_exists.mp hkey
    have hmem := lookupKey_some_mem hps
    have hE2 : ps = keyVals (occList pw) w :=
      entry_addAll (occList pw) ((buildWordToPlayers_eq pw) ▸ hmem)
    have hcnt : slotCount ps p = (validNorm ws).countP fun x => decide (x = w) := by
      rw [hE2, slotCount_keyVals,
        ← countP_occList_player (fun x => decide (x = w)) pw p ws hnd hm]
      apply List.countP_congr
      intro o _
      simp only [Bool.and_eq_true]
      exact and_comm
    refine ⟨(w, ps), hmem, rfl, ?_, ?_⟩
    · show ps.length ≠ 1
      rw [hE2, keyVals_length]
      omega
    · show 0 < slotCount ps p
      rw [hcnt]
      apply List.countP_pos_iff.mpr
      exact ⟨w, hw, by simp⟩

/-- C2, corrected.  The unmatch-round scorer awards the sole submitting
player +1 for every normalized word with exactly one occurrence in total
across all lists; a word with two or more total occurrences (even when both
occurrences come from the same player) contributes 0 and is recorded in the
`matchedWords` list of every player who submitted it.  (The original claim
awarded +1 per occurrence of words submitted by exactly one distinct player;
see the counterexample.) -/
theorem claim_C2_amended (pw : PlayerWords) (p : String) (ws : List String)
    (hnd : PWKeysNodup pw) (hm : (p, ws) ∈ pw) :
    (scoreAt (calculateUnmatchRoundScores pw) p
      = unmatchBaseScore pw ws
        + (if bonusAt (calculateUnmatchRoundScores pw) p then 1 else 0)) ∧
    (∀ w, w ∈ matchedAt (calculateUnmatchRoundScores pw) p ↔
      (w ∈ validNorm ws ∧ 2 ≤ totalOccs pw w)) := by
  constructor
  · unfold scoreAt bonusAt
    rw [calcUnmatch_value hnd hm]
    rfl
  · intro w
    unfold matchedAt
    rw [calcUnmatch_value hnd hm]
    exact mem_matchedU hnd hm w

/-- C2, counterexample to the original claim: with the single input
`{p1: ["cat", "cat"]}`, "cat" is submitted by exactly one player, so the
claim predicts +1 per occurrence (score 2); the code sees two occurrence
slots, treats the word as matched, and awards 0. -/
theorem claim_C2_counterexample : ¬ c2SpecHolds [("p1", ["cat", "cat"])] := by
  unfold c2SpecHolds
  decide

/-- Witness for `claim_C2_amended` at a concrete input. -/
theorem claim_C2_amended_witness :
    (scoreAt (calculateUnmatchRoundScores [("p1", ["ant", "bee"]), ("p2", ["bee"])]) "p1"
      = unmatchBaseScore [("p1", ["ant", "bee"]), ("p2", ["bee"])] ["ant", "bee"]
        + (if bonusAt (calculateUnmatchRoundScores
            [("p1", ["ant", "bee"]), ("p2", ["bee"])]) "p1" then 1 else 0)) ∧
    (∀ w, w ∈ matchedAt (calculateUnmatchRoundScores
        [("p1", ["ant", "bee"]), ("p2", ["bee"])]) "p1" ↔
      (w ∈ validNorm ["ant", "bee"] ∧
        2 ≤ totalOccs [("p1", ["ant", "bee"]), ("p2", ["bee"])] w)) :=
  claim_C2_amended [("p1", ["ant", "bee"]), ("p2", ["bee"])] "p1" ["ant", "bee"]
    (by decide) (by decide)

/-- C10, confirmed.  In the unmatch round, every valid (non-empty after
trimming) word occurrence of a player is accounted for exactly once: the
score without the bonus point plus the length of the player's
`matchedWords` list equals the number of the player's non-empty words. -/
theorem claim_C10 (pw : PlayerWords) (p : String) (ws : List String)
    (hnd : PWKeysNodup pw) (hm : (p, ws) ∈ pw) :
    (scoreAt (calculateUnmatchRoundScores pw) p
       - (if bonusAt (calculateUnmatchRoundScores pw) p then 1 else 0))
      + (matchedAt (calculateUnmatchRoundScores pw) p).length
      = (validWords ws).length := by
  unfold scoreAt bonusAt matchedAt
  rw [calcUnmatch_value hnd hm]
  show (unmatchBaseScore pw ws + (if unmatchBonusOf pw ws then 1 else 0)
      - (if unmatchBonusOf pw ws then 1 else 0))
      + (wmMatchedU (buildWordToPlayers pw) p).length = (validWords ws).length
  rw [Nat.add_sub_cancel, length_wmMatchedU, wmCount_spec _ hnd hm]
  unfold unmatchBaseScore
  rw [← length_validNorm,
    List.length_eq_countP_add_countP (fun w => decide (totalOccs pw w = 1)) (validNorm ws)]
  congr 1
  apply List.countP_congr
  intro w _
  simp

/-- Witness for `claim_C10` at a concrete input. -/
theorem claim_C10_witness :
    (scoreAt (calculateUnmatchRoundScores [("p1", ["ant", "bee", " "]), ("p2", ["bee"])]) "p1"
       - (if bonusAt (calculateUnmatchRoundScores
            [("p1", ["ant", "bee", " "]), ("p2", ["bee"])]) "p1" then 1 else 0))
      + (matchedAt (calculateUnmatchRoundScores
          [("p1", ["ant", "bee", " "]), ("p2", ["bee"])]) "p1").length
      = (validWords ["ant", "bee", " "]).length :=
  claim_C10 [("p1", ["ant", "bee", " "]), ("p2", ["bee"])] "p1" ["ant", "bee", " "]
    (by decide) (by decide)

/-! ## Claim C9: determinism and order-independence of the scorer -/

theorem validNorm_perm {ws ws' : List String} (h : ws.Perm ws') :
    (validNorm ws).Perm (validNorm ws') :=
  (h.map normalizeWord).filter _

theorem validWords_perm {ws ws' : List String} (h : ws.Perm ws') :
    (validWords ws).Perm (validWords ws') :=
  h.filter _

theorem forall₂_mem_left {α β : Type} {r : α → β → Prop} :
    ∀ {l₁ : List α} {l₂ : List β}, List.Forall₂ r l₁ l₂ → ∀ {a}, a ∈ l₁ → ∃ b ∈ l₂, r a b := by
  intro l₁ l₂ hf
  induction hf with
  | nil =>
    intro a ha
    cases ha
  | cons hab htail ih =>
    intro x hx
    rcases List.mem_cons.mp hx with h1 | h1
    · exact ⟨_, List.mem_cons_self _ _, h1 ▸ hab⟩
    · obtain ⟨b, hb, hr⟩ := ih h1
      exact ⟨b, List.mem_cons_of_mem _ hb, hr⟩

theorem occList_forall₂ :
    ∀ {pw pw₀ : PlayerWords},
      List.Forall₂ (fun a b => a.1 = b.1 ∧ a.2.Perm b.2) pw pw₀ →
      (occList pw).Perm (occList pw₀) := by
  intro pw pw₀ hf
  induction hf with
  | nil => exact List.Perm.refl _
  | cons hab htail ih =>
    rename_i a b l₁ l₂
    unfold occList
    rw [List.map_cons, List.flatten_cons, List.map_cons, List.flatten_cons]
    apply List.Perm.append
    · rw [hab.1]
      exact (validNorm_perm hab.2).map _
    · exact ih

theorem occList_equiv {pw pw' : PlayerWords} (h : InputEquiv pw pw') :
    (occList pw).Perm (occList pw') := by
  obtain ⟨pw₀, hf, hp⟩ := h
  exact (occList_forall₂ hf).trans ((hp.map _).flatten)

theorem totalOccs_equiv {pw pw' : PlayerWords} (h : InputEquiv pw pw') (w : String) :
    totalOccs pw w = totalOccs pw' w :=
  (occList_equiv h).countP_eq _

theorem keysOf_forall₂ :
    ∀ {pw pw₀ : PlayerWords},
      List.Forall₂ (fun a b => a.1 = b.1 ∧ a.2.Perm b.2) pw pw₀ →
      keysOf pw = keysOf pw₀ := by
  intro pw pw₀ hf
  induction hf with
  | nil => rfl
  | cons hab htail ih =>
    unfold keysOf
    rw [List.map_cons, List.map_cons]
    unfold keysOf at ih
    rw [ih, hab.1]

theorem keysOf_equiv {pw pw' : PlayerWords} (h : InputEquiv pw pw') :
    (keysOf pw).Perm (keysOf pw') := by
  obtain ⟨pw₀, hf, hp⟩ := h
  rw [keysOf_forall₂ hf]
  exact hp.map _

theorem nodup_equiv {pw pw' : PlayerWords} (h : InputEquiv pw pw')
    (hnd : PWKeysNodup pw) : PWKeysNodup pw' :=
  ((keysOf_equiv h).nodup_iff).mp hnd

theorem entry_equiv {pw pw' : PlayerWords} (h : InputEquiv pw pw') {p : String}
    {ws : List String} (hm : (p, ws) ∈ pw) :
    ∃ ws', (p, ws') ∈ pw' ∧ ws.Perm ws' := by
  obtain ⟨pw₀, hf, hp⟩ := h
  obtain ⟨b, hb, hr⟩ := forall₂_mem_left hf hm
  refine ⟨b.2, ?_, hr.2⟩
  have hb2 : (p, b.2) = b := Prod.ext hr.1 rfl
  rw [hb2]
  exact hp.mem_iff.mp hb

theorem perm_all_eq {l l' : List String} (h : l.Perm l') (f : String → Bool) :
    l.all f = l'.all f := by
  by_cases hb : l.all f = true
  · rw [hb]
    symm
    rw [List.all_eq_true]
    intro x hx
    exact List.all_eq_true.mp hb x (h.mem_iff.mpr hx)
  · have hb' : ¬l'.all f = true := fun hc =>
      hb (List.all_eq_true.mpr fun x hx => List.all_eq_true.mp hc x (h.mem_iff.mp hx))
    rw [Bool.not_eq_true] at hb hb'
    rw [hb, hb']

theorem perm_ne_nil_iff {l l' : List String} (h : l.Perm l') : l ≠ [] ↔ l' ≠ [] := by
  have hlen := h.length_eq
  constructor
  · intro h1 h2
    exact h1 (List.length_eq_zero.mp (by rw [hlen, h2]; rfl))
  · intro h1 h2
    exact h1 (List.length_eq_zero.mp (by rw [← hlen, h2]; rfl))

theorem keysOf_map_entry {β γ : Type} (l : List (String × β)) (f : String → β → γ) :
    keysOf (l.map fun e => (e.1, f e.1 e.2)) = keysOf l := by
  unfold keysOf
  rw [List.map_map]
  apply List.map_congr_left
  intro a _
  rfl

theorem keysOf_initScores (pw : PlayerWords) : keysOf (initScores pw) = keysOf pw := by
  unfold initScores keysOf
  rw [List.map_map]
  apply List.map_congr_left
  intro a _
  rfl

theorem calcMatch_shape (pw : PlayerWords) :
    calculateMatchRoundScores pw
      = ((initScores pw).map fun en =>
          (en.1, matchPointsFold (buildWordToPlayers pw) en.1 en.2)).map
          fun en => (en.1, matchBonusFold (buildWordToPlayers pw) pw en.1 en.2) := by
  rw [show calculateMatchRoundScores pw
      = awardMatchBonus (awardMatchPoints (initScores pw) (buildWordToPlayers pw))
          (buildWordToPlayers pw) pw from rfl]
  rw [show awardMatchPoints (initScores pw) (buildWordToPlayers pw)
      = (initScores pw).map fun en =>
          (en.1, matchPointsFold (buildWordToPlayers pw) en.1 en.2) from
    awardMatchPoints_eq (buildWordToPlayers pw) (initScores pw)]
  exact awardMatchBonus_eq pw _ (buildWordToPlayers pw)

theorem calcUnmatch_shape (pw : PlayerWords) :
    calculateUnmatchRoundScores pw
      = ((initScores pw).map fun en =>
          (en.1, unmatchPointsFold (buildWordToPlayers pw) en.1 en.2)).map
          fun en => (en.1, unmatchBonusFold (buildWordToPlayers pw) pw en.1 en.2) := by
  rw [show calculateUnmatchRoundScores pw
      = awardUnmatchBonus (awardUnmatchPoints (initScores pw) (buildWordToPlayers pw))
          (buildWordToPlayers pw) pw from rfl]
  rw [show awardUnmatchPoints (initScores pw) (buildWordToPlayers pw)
      = (initScores pw).map fun en =>
          (en.1, unmatchPointsFold (buildWordToPlayers pw) en.1 en.2) from
    awardUnmatchPoints_eq (buildWordToPlayers pw) (initScores pw)]
  exact awardUnmatchBonus_eq pw _ (buildWordToPlayers pw)

theorem keysOf_calcMatch (pw : PlayerWords) :
    keysOf (calculateMatchRoundScores pw) = keysOf pw := by
  rw [calcMatch_shape, keysOf_map_entry, keysOf_map_entry, keysOf_initScores]

theorem keysOf_calcUnmatch (pw : PlayerWords) :
    keysOf (calculateUnmatchRoundScores pw) = keysOf pw := by
  rw [calcUnmatch_shape, keysOf_map_entry, keysOf_map_entry, keysOf_initScores]

theorem matchBaseScore_equiv {pw pw' : PlayerWords} (h : InputEquiv pw pw')
    {ws ws' : List String} (hperm : ws.Perm ws') :
    matchBaseScore pw ws = matchBaseScore pw' ws' := by
  unfold matchBaseScore
  rw [show (fun w => decide (2 ≤ totalOccs pw w)) = (fun w => decide (2 ≤ totalOccs pw' w))
    from funext fun w => by rw [totalOccs_equiv h]]
  exact (validNorm_perm hperm).countP_eq _

theorem unmatchBaseScore_equiv {pw pw' : PlayerWords} (h : InputEquiv pw pw')
    {ws ws' : List String} (hperm : ws.Perm ws') :
    unmatchBaseScore pw ws = unmatchBaseScore pw' ws' := by
  unfold unmatchBaseScore
  rw [show (fun w => decide (totalOccs pw w = 1)) = (fun w => decide (totalOccs pw' w = 1))
    from funext fun w => by rw [totalOccs_equiv h]]
  exact (validNorm_perm hperm).countP_eq _

theorem matchBonusOf_equiv {pw pw' : PlayerWords} (h : InputEquiv pw pw')
    {ws ws' : List String} (hperm : ws.Perm ws') :
    matchBonusOf pw ws = matchBonusOf pw' ws' := by
  unfold matchBonusOf
  have hVW := validWords_perm hperm
  congr 1
  · exact decide_eq_decide.mpr (perm_ne_nil_iff hVW)
  · rw [show (fun w => decide (2 ≤ totalOccs pw (normalizeWord w)))
        = (fun w => decide (2 ≤ totalOccs pw' (normalizeWord w)))
      from funext fun w => by rw [totalOccs_equiv h]]
    exact perm_all_eq hVW _

theorem unmatchBonusOf_equiv {pw pw' : PlayerWords} (h : InputEquiv pw pw')
    {ws ws' : List String} (hperm : ws.Perm ws') :
    unmatchBonusOf pw ws = unmatchBonusOf pw' ws' := by
  unfold unmatchBonusOf
  have hVW := validWords_perm hperm
  congr 1
  · exact decide_eq_decide.mpr (perm_ne_nil_iff hVW)
  · rw [show (fun w => decide (totalOccs pw (normalizeWord w) = 1))
        = (fun w => decide (totalOccs pw' (normalizeWord w) = 1))
      from funext fun w => by rw [totalOccs_equiv h]]
    exact perm_all_eq hVW _

/-- C9, confirmed.  The scorer is a pure function (determinism is
definitional in this embedding), and each player's score and bonus flag in
both rounds are unchanged when any player's word list is permuted and when
the players are listed in a different order. -/
theorem claim_C9 (pw pw' : PlayerWords) (h : InputEquiv pw pw') (hnd : PWKeysNodup pw)
    (p : String) :
    scoreAt (calculateMatchRoundScores pw) p = scoreAt (calculateMatchRoundScores pw') p ∧
    bonusAt (calculateMatchRoundScores pw) p = bonusAt (calculateMatchRoundScores pw') p ∧
    scoreAt (calculateUnmatchRoundScores pw) p = scoreAt (calculateUnmatchRoundScores pw') p ∧
    bonusAt (calculateUnmatchRoundScores pw) p = bonusAt (calculateUnmatchRoundScores pw') p := by
  have hnd' : PWKeysNodup pw' := nodup_equiv h hnd
  by_cases hp : p ∈ keysOf pw
  · obtain ⟨e, he, hep⟩ := mem_keysOf_iff.mp hp
    have hm : (p, e.2) ∈ pw := by
      rw [show ((p, e.2) : String × List String) = e from Prod.ext hep.symm rfl]
      exact he
    obtain ⟨ws', hm', hperm⟩ := entry_equiv h hm
    have hv := calcMatch_value hnd hm
    have hv' := calcMatch_value hnd' hm'
    have hu := calcUnmatch_value hnd hm
    have hu' := calcUnmatch_value hnd' hm'
    have hb := matchBonusOf_equiv h hperm
    have hbb := unmatchBonusOf_equiv h hperm
    have hs := matchBaseScore_equiv h hperm
    have hss := unmatchBaseScore_equiv h hperm
    refine ⟨?_, ?_, ?_, ?_⟩
    · unfold scoreAt
      rw [hv, hv']
      show matchBaseScore pw e.2 + (if matchBonusOf pw e.2 then 1 else 0)
        = matchBaseScore pw' ws' + (if matchBonusOf pw' ws' then 1 else 0)
      rw [hs, hb]
    · unfold bonusAt
      rw [hv, hv']
      show matchBonusOf pw e.2 = matchBonusOf pw' ws'
      exact hb
    · unfold scoreAt
      rw [hu, hu']
      show unmatchBaseScore pw e.2 + (if unmatchBonusOf pw e.2 then 1 else 0)
        = unmatchBaseScore pw' ws' + (if unmatchBonusOf pw' ws' then 1 else 0)
      rw [hss, hbb]
    · unfold bonusAt
      rw [hu, hu']
      show unmatchBonusOf pw e.2 = unmatchBonusOf pw' ws'
      exact hbb
  · have hp' : p ∉ keysOf pw' := fun hc => hp ((keysOf_equiv h).mem_iff.mpr hc)
    have h1 : lookupKey (calculateMatchRoundScores pw) p = none := by
      rw [lookupKey_eq_none_iff, keysOf_calcMatch]
      exact hp
    have h2 : lookupKey (calculateMatchRoundScores pw') p = none := by
      rw [lookupKey_eq_none_iff, keysOf_calcMatch]
      exact hp'
    have h3 : lookupKey (calculateUnmatchRoundScores pw) p = none := by
      rw [lookupKey_eq_none_iff, keysOf_calcUnmatch]
      exact hp
    have h4 : lookupKey (calculateUnmatchRoundScores pw') p = none := by
      rw [lookupKey_eq_none_iff, keysOf_calcUnmatch]
      exact hp'
    unfold scoreAt bonusAt
    rw [h1, h2, h3, h4]
    exact ⟨rfl, rfl, rfl, rfl⟩

/-- Witness for `claim_C9` at a concrete input: the second input permutes
p1's words and swaps the order of the two players. -/
theorem claim_C9_witness :
    scoreAt (calculateMatchRoundScores [("p1", ["a", "b"]), ("p2", ["b"])]) "p1"
      = scoreAt (calculateMatchRoundScores [("p2", ["b"]), ("p1", ["b", "a"])]) "p1" ∧
    bonusAt (calculateMatchRoundScores [("p1", ["a", "b"]), ("p2", ["b"])]) "p1"
      = bonusAt (calculateMatchRoundScores [("p2", ["b"]), ("p1", ["b", "a"])]) "p1" ∧
    scoreAt (calculateUnmatchRoundScores [("p1", ["a", "b"]), ("p2", ["b"])]) "p1"
      = scoreAt (calculateUnmatchRoundScores [("p2", ["b"]), ("p1", ["b", "a"])]) "p1" ∧
    bonusAt (calculateUnmatchRoundScores [("p1", ["a", "b"]), ("p2", ["b"])]) "p1"
      = bonusAt (calculateUnmatchRoundScores [("p2", ["b"]), ("p1", ["b", "a"])]) "p1" :=
  claim_C9 [("p1", ["a", "b"]), ("p2", ["b"])] [("p2", ["b"]), ("p1", ["b", "a"])]
    ⟨[("p1", ["b", "a"]), ("p2", ["b"])],
      List.Forall₂.cons ⟨rfl, by decide⟩ (List.Forall₂.cons ⟨rfl, by decide⟩ List.Forall₂.nil),
      by decide⟩
    (by decide) "p1"

/-- C6, counterexample to the original claim: with round 1 of type "match",
the join.ts rule makes round 2 also "match" (`(1 + 1) % 2 == 0`), so the
type sequence does not strictly alternate from round 1 to round 2. -/
theorem claim_C6_counterexample :
    roundTypesJoin "match" 1 = "match" ∧ roundTypesJoin "match" 2 = "match" ∧
    ¬ roundTypesJoin "match" 2 = nextRoundTypeEdge (roundTypesJoin "match" 1) := by
  unfold roundTypesJoin nextRoundTypeJoin nextRoundTypeEdge
  decide

/-- C6, corrected.  Under the join.ts auto-advance rule the round types do
strictly alternate from round 2 onwards, but round 2 is always "match"
regardless of the randomly chosen type of round 1 (so the toggle from round
1 to round 2 fails whenever round 1 is "match"); the edge function's rule,
by contrast, strictly toggles from every round to the next. -/
theorem claim_C6_amended (first : String) (n : Nat) :
    (2 ≤ n → roundTypesJoin first (n + 1) = nextRoundTypeEdge (roundTypesJoin first n)) ∧
    roundTypesJoin first 2 = "match" ∧
    (1 ≤ n → roundTypesEdge first (n + 1) = nextRoundTypeEdge (roundTypesEdge first n)) := by
  refine ⟨?_, rfl, ?_⟩
  · intro h
    unfold roundTypesJoin
    rw [if_neg (by omega), if_neg (by omega)]
    unfold nextRoundTypeJoin nextRoundTypeEdge
    rw [show n + 1 - 1 + 1 = n + 1 from by omega, show n - 1 + 1 = n from by omega]
    rcases Nat.even_or_odd n with he | ho
    · have e0 : n % 2 = 0 := Nat.even_iff.mp he
      have e1 : (n + 1) % 2 = 1 := by omega
      rw [e0, e1]
      decide
    · have e0 : n % 2 = 1 := Nat.odd_iff.mp ho
      have e1 : (n + 1) % 2 = 0 := by omega
      rw [e0, e1]
      decide
  · intro h
    obtain ⟨m, rfl⟩ : ∃ m, n = m + 1 := ⟨n - 1, by omega⟩
    rfl

/-- Witness for `claim_C6_amended` at first = "unmatch", n = 2. -/
theorem claim_C6_amended_witness :
    roundTypesJoin "unmatch" 3 = nextRoundTypeEdge (roundTypesJoin "unmatch" 2) ∧
    roundTypesJoin "unmatch" 2 = "match" ∧
    roundTypesEdge "unmatch" 3 = nextRoundTypeEdge (roundTypesEdge "unmatch" 2) :=
  ⟨(claim_C6_amended "unmatch" 2).1 (by omega),
   (claim_C6_amended "unmatch" 2).2.1,
   (claim_C6_amended "unmatch" 2).2.2 (by omega)⟩

/-- C8, confirmed.  `getRandomTopic` filters out the used topic ids first:
whenever some topic of the pool is still unused (and the random index is in
range of the filtered pool, as `Math.floor(Math.random() * length)` always
is), the drawn topic is an unused member of the pool; only when every topic
has been used does it fall back to drawing from the full pool. -/
theorem claim_C8 (pool : List Topic) (used : List String) (idx : Nat) :
    ((∃ t, t ∈ pool ∧ t.id ∉ used) →
      idx < (pool.filter fun t => !(used.contains t.id)).length →
      ∃ t, getRandomTopic pool used idx = some t ∧ t ∈ pool ∧ t.id ∉ used) ∧
    ((∀ t ∈ pool, t.id ∈ used) → getRandomTopic pool used idx = pool[idx]?) := by
  constructor
  · rintro ⟨t0, ht0, hu0⟩ hidx
    have hne : ¬ pool.length = 0 := by
      intro h
      rw [List.length_eq_zero] at h
      subst h
      exact (List.not_mem_nil t0) ht0
    have hmem : t0 ∈ pool.filter fun t => !(used.contains t.id) := by
      rw [List.mem_filter]
      refine ⟨ht0, ?_⟩
      simp only [Bool.not_eq_true', ← Bool.not_eq_true]
      simpa using hu0
    have hfne : ¬ (pool.filter fun t => !(used.contains t.id)).length = 0 := by
      intro h
      rw [List.length_eq_zero] at h
      rw [h] at hmem
      exact (List.not_mem_nil t0) hmem
    simp only [getRandomTopic]
    rw [if_neg hne, if_neg hfne]
    have hmem2 := List.getElem_mem hidx
    obtain ⟨hp, hq⟩ := List.mem_filter.mp hmem2
    refine ⟨(pool.filter fun t => !(used.contains t.id))[idx], List.getElem?_eq_getElem hidx,
      hp, ?_⟩
    intro hin
    have hc : used.contains ((pool.filter fun t => !(used.contains t.id))[idx]).id = true :=
      List.elem_eq_true_of_mem hin
    rw [hc] at hq
    simp at hq
  · intro hall
    simp only [getRandomTopic]
    by_cases hp : pool.length = 0
    · rw [if_pos hp]
      rw [List.length_eq_zero] at hp
      rw [hp]
      rfl
    · rw [if_neg hp]
      have hfe : pool.filter (fun t => !(used.contains t.id)) = [] := by
        rw [List.filter_eq_nil_iff]
        intro t ht
        simp [hall t ht]
      rw [hfe]
      rfl

/-- Witness for `claim_C8`: with pool {t1, t2} and t1 used, the draw returns
the unused t2; once both are used, the draw falls back to indexing the full
pool. -/
theorem claim_C8_witness :
    (∃ t, getRandomTopic [⟨"t1", "A"⟩, ⟨"t2", "B"⟩] ["t1"] 0 = some t ∧
      t ∈ [(⟨"t1", "A"⟩ : Topic), ⟨"t2", "B"⟩] ∧ t.id ∉ ["t1"]) ∧
    getRandomTopic [⟨"t1", "A"⟩, ⟨"t2", "B"⟩] ["t1", "t2"] 1
      = [(⟨"t1", "A"⟩ : Topic), ⟨"t2", "B"⟩][1]? :=
  ⟨(claim_C8 [⟨"t1", "A"⟩, ⟨"t2", "B"⟩] ["t1"] 0).1
      ⟨⟨"t2", "B"⟩, by decide, by decide⟩ (by decide),
   (claim_C8 [⟨"t1", "A"⟩, ⟨"t2", "B"⟩] ["t1", "t2"] 1).2 (by decide)⟩

theorem find?_stamp (l : List RoundRec) (rn now : Nat) :
    ((l.map fun r => if r.roundNumber = rn then { r with endTime := some now } else r).find?
        fun r => r.roundNumber == rn)
      = (l.find? fun r => r.roundNumber == rn).map fun r => { r with endTime := some now } := by
  induction l with
  | nil => rfl
  | cons a l ih =>
    by_cases h : a.roundNumber = rn
    · rw [List.map_cons, if_pos h]
      have hb : (a.roundNumber == rn) = true := by simp [h]
      simp [List.find?_cons, hb]
    · rw [List.map_cons, if_neg h]
      have hb : (a.roundNumber == rn) = false := by simp [h]
      simp only [List.find?_cons, hb]
      exact ih

theorem getRound_setEndTime (st : GameState) (rn now : Nat) :
    getRound (setEndTime st rn now) rn
      = (getRound st rn).map fun r => { r with endTime := some now } :=
  find?_stamp st.rounds rn now

theorem find?_append_some {α : Type} {p : α → Bool} {l₁ : List α} (l₂ : List α) {a : α}
    (h : l₁.find? p = some a) : (l₁ ++ l₂).find? p = some a := by
  rw [List.find?_append, h]
  rfl

theorem lookupKey_map_update (l : List (String × Nat)) (p : String) (k : Nat) :
    lookupKey (l.map fun q => if q.1 = p then (q.1, q.2 + k) else q) p
      = (lookupKey l p).map fun s => s + k := by
  induction l with
  | nil => rfl
  | cons q l ih =>
    by_cases h : q.1 = p
    · rw [List.map_cons, if_pos h]
      show lookupKey ((q.1, q.2 + k) :: _) p = _
      rw [show lookupKey ((q.1, q.2 + k) :: (l.map fun q => if q.1 = p then (q.1, q.2 + k) else q)) p
          = if q.1 = p then some (q.2 + k) else lookupKey (l.map fun q => if q.1 = p then (q.1, q.2 + k) else q) p from rfl]
      rw [if_pos h]
      rw [show lookupKey (q :: l) p = if q.1 = p then some q.2 else lookupKey l p from rfl]
      rw [if_pos h]
      rfl
    · rw [List.map_cons, if_neg h]
      rw [show lookupKey (q :: (l.map fun q => if q.1 = p then (q.1, q.2 + k) else q)) p
          = if q.1 = p then some q.2 else lookupKey (l.map fun q => if q.1 = p then (q.1, q.2 + k) else q) p from rfl]
      rw [if_neg h]
      rw [show lookupKey (q :: l) p = if q.1 = p then some q.2 else lookupKey l p from rfl]
      rw [if_neg h]
      exact ih

/-- C4, counterexample to the original claim: closing the one round of
`c4ex` twice (same submissions both times) leaves a single RoundScore row —
the `UNIQUE(round_id, player_id)` constraint rejects the duplicate insert
and the source ignores the error — but `update_player_score` runs again, so
p1's cumulative score doubles from 2 to 4: the second close is not a no-op
and there is no end_time-null guard to stop it. -/
theorem claim_C4_counterexample :
    lookupKey (endRoundOp c4ex 1 [("p1", "a")] 0 none).players "p1" = some 2 ∧
    lookupKey (endRoundOp (endRoundOp c4ex 1 [("p1", "a")] 0 none) 1
      [("p1", "a")] 5 none).players "p1" = some 4 ∧
    rowCount (endRoundOp (endRoundOp c4ex 1 [("p1", "a")] 0 none) 1
      [("p1", "a")] 5 none) 1 "p1" = 1 := by
  decide

/-- C4, corrected.  The close operation is not idempotent.  The end_time
update has no null guard, so a second close re-stamps an already-closed
round (first clause); re-saving a player's score for a round that already
has that player's RoundScore row adds no second row (the unique constraint
silently rejects it) but still re-runs `update_player_score`, incrementing
the player's cumulative total again (second and third clauses). -/
theorem claim_C4_amended (st : GameState) (rn : Nat) (p : String) (d : ScoreData)
    (now : Nat) (r : RoundRec) (hrow : hasScoreRow st rn p = true)
    (hr : getRound st rn = some r) :
    getRound (setEndTime st rn now) rn = some { r with endTime := some now } ∧
    rowCount (saveOneScore st rn p d) rn p = rowCount st rn p ∧
    lookupKey (saveOneScore st rn p d).players p
      = (lookupKey st.players p).map fun s => s + d.score := by
  refine ⟨?_, ?_, ?_⟩
  · rw [getRound_setEndTime, hr]
    rfl
  · simp only [saveOneScore]
    rw [if_pos hrow]
    rfl
  · simp only [saveOneScore]
    rw [if_pos hrow]
    exact lookupKey_map_update st.players p d.score

/-- Witness for `claim_C4_amended`: the state after the first close of
`c4ex` already holds p1's row for round 1, and the second save raises p1's
total from 2 to 4 while the re-stamp overwrites end_time. -/
theorem claim_C4_amended_witness :
    getRound (setEndTime (endRoundOp c4ex 1 [("p1", "a")] 0 none) 1 9) 1
      = some ⟨1, "unmatch", some 9⟩ ∧
    rowCount (saveOneScore (endRoundOp c4ex 1 [("p1", "a")] 0 none) 1 "p1" ⟨2, [], true⟩) 1 "p1"
      = rowCount (endRoundOp c4ex 1 [("p1", "a")] 0 none) 1 "p1" ∧
    lookupKey (saveOneScore (endRoundOp c4ex 1 [("p1", "a")] 0 none) 1 "p1"
        ⟨2, [], true⟩).players "p1"
      = (lookupKey (endRoundOp c4ex 1 [("p1", "a")] 0 none).players "p1").map fun s => s + 2 :=
  claim_C4_amended (endRoundOp c4ex 1 [("p1", "a")] 0 none) 1 "p1" ⟨2, [], true⟩ 9
    ⟨1, "unmatch", some 0⟩ (by decide) (by decide)

/-- C5, counterexample to the original claim: closing `c4ex`'s round with a
persistence failure on the very first RoundScore insert (`failAt = some 0`)
leaves the round closed — end_time was stamped before scoring — with no
RoundScore rows at all: closed and unscored. -/
theorem claim_C5_counterexample :
    getRound (endRoundOp c4ex 1 [("p1", "a")] 0 (some 0)) 1 = some ⟨1, "unmatch", some 0⟩ ∧
    (endRoundOp c4ex 1 [("p1", "a")] 0 (some 0)).roundScores = [] := by
  decide

/-- C5, corrected.  The handler stamps end_time first and only then scores:
a close with zero submissions returns right after the stamp (first clause),
and a close whose first RoundScore write fails leaves the RoundScore table
untouched while the round stays stamped closed (second and third clauses) —
so a round can be simultaneously closed and unscored, and the spec's
invariant fails. -/
theorem claim_C5_amended (st : GameState) (rn : Nat) (subs : List (String × String))
    (now : Nat) (failAt : Option Nat) (r0 : RoundRec) (hr : getRound st rn = some r0) :
    (subs.isEmpty = true → endRoundOp st rn subs now failAt = setEndTime st rn now) ∧
    (endRoundOp st rn subs now (some 0)).roundScores = st.roundScores ∧
    getRound (endRoundOp st rn subs now (some 0)) rn = some { r0 with endTime := some now } := by
  have hg : getRound (setEndTime st rn now) rn = some { r0 with endTime := some now } := by
    rw [getRound_setEndTime, hr]
    rfl
  refine ⟨?_, ?_, ?_⟩
  · intro hs
    simp only [endRoundOp, hg]
    rw [if_pos hs]
  · simp only [endRoundOp, hg, saveRoundScoresOp, List.take_zero, List.foldl_nil]
    repeat' split
    all_goals rfl
  · simp only [endRoundOp, hg, saveRoundScoresOp, List.take_zero, List.foldl_nil]
    repeat' split
    all_goals first
      | exact hg
      | exact find?_append_some _ hg

/-- Witness for `claim_C5_amended` at the concrete state `c4ex`: a
zero-submission close is exactly the end_time stamp, and a failing close
leaves the (empty) RoundScore table unchanged with the round stamped. -/
theorem claim_C5_amended_witness :
    endRoundOp c4ex 1 [] 0 none = setEndTime c4ex 1 0 ∧
    (endRoundOp c4ex 1 [] 0 (some 0)).roundScores = c4ex.roundScores ∧
    getRound (endRoundOp c4ex 1 [] 0 (some 0)) 1 = some ⟨1, "unmatch", some 0⟩ :=
  ⟨(claim_C5_amended c4ex 1 [] 0 none ⟨1, "unmatch", none⟩ (by decide)).1 rfl,
   (claim_C5_amended c4ex 1 [] 0 none ⟨1, "unmatch", none⟩ (by decide)).2.1,
   (claim_C5_amended c4ex 1 [] 0 none ⟨1, "unmatch", none⟩ (by decide)).2.2⟩

theorem saveOneScore_fields (st : GameState) (rn : Nat) (p : String) (d : ScoreData) :
    (saveOneScore st rn p d).rounds = st.rounds ∧
    (saveOneScore st rn p d).currentRound = st.currentRound ∧
    (saveOneScore st rn p d).roundCount = st.roundCount ∧
    (saveOneScore st rn p d).status = st.status := by
  simp only [saveOneScore]
  split
  · exact ⟨rfl, rfl, rfl, rfl⟩
  · exact ⟨rfl, rfl, rfl, rfl⟩

theorem saveLoop_fields (rn : Nat) (entries : Scores) (st : GameState) :
    (entries.foldl (fun s e => saveOneScore s rn e.1 e.2) st).rounds = st.rounds ∧
    (entries.foldl (fun s e => saveOneScore s rn e.1 e.2) st).currentRound = st.currentRound ∧
    (entries.foldl (fun s e => saveOneScore s rn e.1 e.2) st).roundCount = st.roundCount ∧
    (entries.foldl (fun s e => saveOneScore s rn e.1 e.2) st).status = st.status := by
  induction entries generalizing st with
  | nil => exact ⟨rfl, rfl, rfl, rfl⟩
  | cons e es ih =>
    rw [List.foldl_cons]
    obtain ⟨h1, h2, h3, h4⟩ := ih (saveOneScore st rn e.1 e.2)
    obtain ⟨g1, g2, g3, g4⟩ := saveOneScore_fields st rn e.1 e.2
    exact ⟨h1.trans g1, h2.trans g2, h3.trans g3, h4.trans g4⟩

theorem saveOp_fields (st : GameState) (rn : Nat) (entries : Scores) (failAt : Option Nat) :
    (saveRoundScoresOp st rn entries failAt).1.rounds = st.rounds ∧
    (saveRoundScoresOp st rn entries failAt).1.currentRound = st.currentRound ∧
    (saveRoundScoresOp st rn entries failAt).1.roundCount = st.roundCount ∧
    (saveRoundScoresOp st rn entries failAt).1.status = st.status := by
  cases failAt with
  | none => exact saveLoop_fields rn entries st
  | some k => exact saveLoop_fields rn (entries.take k) st

theorem roundNumbers_setEndTime (st : GameState) (rn now : Nat) :
    roundNumbers (setEndTime st rn now) = roundNumbers st := by
  unfold roundNumbers setEndTime
  rw [List.map_map]
  apply List.map_congr_left
  intro r _
  by_cases h : r.roundNumber = rn
  · simp [Function.comp, h]
  · simp [Function.comp, h]

theorem hasRound_iff (st : GameState) (m : Nat) :
    hasRound st m = true ↔ m ∈ roundNumbers st := by
  unfold hasRound roundNumbers
  rw [List.any_eq_true]
  constructor
  · rintro ⟨r, hr, he⟩
    exact List.mem_map.mpr ⟨r, hr, by simpa using he⟩
  · intro hm
    obtain ⟨r, hr, he⟩ := List.mem_map.mp hm
    exact ⟨r, hr, by simp [he]⟩

theorem getRound_mem {st : GameState} {m : Nat} {r : RoundRec}
    (h : getRound st m = some r) : r ∈ st.rounds ∧ r.roundNumber = m := by
  unfold getRound at h
  refine ⟨List.mem_of_find?_eq_some h, ?_⟩
  have := List.find?_some h
  simpa using this

theorem roundsInv_of_fields {st st' : GameState} (hr : st'.rounds = st.rounds)
    (hc : st'.currentRound = st.currentRound) (hk : st'.roundCount = st.roundCount)
    (h : RoundsInv st) : RoundsInv st' := by
  unfold RoundsInv roundNumbers at h ⊢
  rw [hr, hc, hk]
  exact h

theorem roundsInv_setEndTime (st : GameState) (rn now : Nat) (h : RoundsInv st) :
    RoundsInv (setEndTime st rn now) := by
  unfold RoundsInv at h ⊢
  rw [roundNumbers_setEndTime]
  exact h

theorem roundsInv_append (st : GameState) (t : String) (h : RoundsInv st)
    (hlt : st.currentRound < st.roundCount) :
    RoundsInv { st with
      rounds := st.rounds ++ [⟨st.currentRound + 1, t, none⟩],
      currentRound := st.currentRound + 1 } := by
  obtain ⟨h1, h2, h3⟩ := h
  have hro : roundNumbers { st with
      rounds := st.rounds ++ [⟨st.currentRound + 1, t, none⟩],
      currentRound := st.currentRound + 1 } = roundNumbers st ++ [st.currentRound + 1] := by
    simp [roundNumbers]
  refine ⟨?_, ?_, ?_⟩
  · intro n hn
    rw [hro] at hn
    show 1 ≤ n ∧ n ≤ st.currentRound + 1
    rcases List.mem_append.mp hn with hl | hr
    · obtain ⟨ha, hb⟩ := h1 n hl
      exact ⟨ha, by omega⟩
    · have : n = st.currentRound + 1 := by simpa using hr
      omega
  · intro n hn1 hn2
    rw [hro]
    have hn2' : n ≤ st.currentRound + 1 := hn2
    rcases Nat.lt_or_ge n (st.currentRound + 1) with hlt2 | hge
    · exact List.mem_append.mpr (Or.inl (h2 n hn1 (by omega)))
    · have : n = st.currentRound + 1 := by omega
      subst this
      exact List.mem_append.mpr (Or.inr (by simp))
  · show st.currentRound + 1 ≤ st.roundCount
    omega

theorem roundsInv_endRound (st : GameState) (rn : Nat) (subs : List (String × String))
    (now : Nat) (failAt : Option Nat) (h : RoundsInv st) :
    RoundsInv (endRoundOp st rn subs now failAt) := by
  have hst1 : RoundsInv (setEndTime st rn now) := roundsInv_setEndTime st rn now h
  have hsave : ∀ entries : Scores,
      RoundsInv ((saveRoundScoresOp (setEndTime st rn now) rn entries failAt).1) := by
    intro entries
    obtain ⟨g1, g2, g3, g4⟩ := saveOp_fields (setEndTime st rn now) rn entries failAt
    exact roundsInv_of_fields g1 g2 g3 hst1
  simp only [endRoundOp]
  repeat' split
  all_goals first
    | exact hst1
    | exact hsave _
    | exact roundsInv_of_fields rfl rfl rfl (hsave _)
    | exact roundsInv_append _ _ (hsave _) (by omega)

theorem roundCount_endRound (st : GameState) (rn : Nat) (subs : List (String × String))
    (now : Nat) (failAt : Option Nat) :
    (endRoundOp st rn subs now failAt).roundCount = st.roundCount := by
  have hsave : ∀ entries : Scores,
      (saveRoundScoresOp (setEndTime st rn now) rn entries failAt).1.roundCount
        = st.roundCount := by
    intro entries
    exact (saveOp_fields (setEndTime st rn now) rn entries failAt).2.2.1
  simp only [endRoundOp]
  repeat' split
  all_goals first
    | rfl
    | exact hsave _

theorem roundCount_startRound (st : GameState) (n : Nat) :
    (startRoundOp st n).roundCount = st.roundCount := by
  simp only [startRoundOp]
  repeat' split
  all_goals rfl

theorem status_startRound (st : GameState) (n : Nat) :
    (startRoundOp st n).status = st.status := by
  simp only [startRoundOp]
  repeat' split
  all_goals rfl

theorem mem_roundNumbers_of_getRound {st : GameState} {n : Nat} {r : RoundRec}
    (hg : getRound st n = some r) : n ∈ roundNumbers st := by
  obtain ⟨hmem, hrn⟩ := getRound_mem hg
  unfold roundNumbers
  exact List.mem_map.mpr ⟨r, hmem, hrn⟩

theorem roundsInv_insertBranch (st : GameState) (n : Nat) (h : RoundsInv st)
    (hle : ¬ st.roundCount ≤ st.currentRound) (hhr : ¬ hasRound st (n + 1) = true)
    (hn_le : n ≤ st.currentRound) :
    RoundsInv { st with
      rounds := st.rounds ++ [⟨n + 1, nextRoundTypeStartRound n, none⟩],
      currentRound := n + 1 } := by
  have hcur : st.currentRound < n + 1 := by
    by_contra hc
    have hc2 : n + 1 ≤ st.currentRound := by omega
    exact hhr ((hasRound_iff st (n + 1)).mpr (h.2.1 (n + 1) (by omega) hc2))
  have heq : n = st.currentRound := by omega
  subst heq
  exact roundsInv_append st (nextRoundTypeStartRound st.currentRound) h (by omega)

theorem roundsInv_startRound (st : GameState) (n : Nat) (h : RoundsInv st) :
    RoundsInv (startRoundOp st n) := by
  simp only [startRoundOp]
  by_cases hle : st.roundCount ≤ st.currentRound
  · rw [if_pos hle]
    exact h
  · rw [if_neg hle]
    by_cases hn0 : n = 0
    · subst hn0
      rw [if_pos rfl, if_pos rfl]
      by_cases hhr : hasRound st 1 = true
      · rw [if_pos hhr]
        exact h
      · rw [if_neg hhr]
        exact roundsInv_insertBranch st 0 h hle hhr (by omega)
    · rw [if_neg hn0]
      cases hg : getRound st n with
      | none =>
        split
        · rename_i hcond
          exact absurd hcond (by simp)
        · exact h
      | some r =>
        split
        · split
          · exact h
          · rename_i hcond hhr
            exact roundsInv_insertBranch st n h hle hhr
              ((h.1 n (mem_roundNumbers_of_getRound hg)).2)
        · exact h

theorem roundsInv_applyOp (st : GameState) (op : GameOp) (h : RoundsInv st) :
    RoundsInv (applyOp st op) := by
  cases op with
  | endR rn subs now failAt => exact roundsInv_endRound st rn subs now failAt h
  | startR n => exact roundsInv_startRound st n h

theorem roundCount_applyOp (st : GameState) (op : GameOp) :
    (applyOp st op).roundCount = st.roundCount := by
  cases op with
  | endR rn subs now failAt => exact roundCount_endRound st rn subs now failAt
  | startR n => exact roundCount_startRound st n

theorem roundsInv_c7ex : RoundsInv c7ex := by
  refine ⟨by decide, ?_, by decide⟩
  intro n h1 h2
  have h2' : n ≤ 5 := h2
  simp [roundNumbers, c7ex]
  omega

theorem roundsInv_oneOfFive : RoundsInv { status := "in-progress", currentRound := 1, roundCount := 5, rounds := [⟨1, "match", none⟩], players := [], roundScores := [] } := by
  refine ⟨by decide, ?_, by decide⟩
  intro n h1 h2
  have h2' : n ≤ 1 := h2
  simp [roundNumbers]
  omega

/-- C7, counterexample to the original claim: closing the fifth round of
`c7ex` with zero submissions stamps its end_time — the round is closed —
but the handler returns before the completion check, so the game stays
"in-progress": the status does not transition exactly when the 5th round is
closed. -/
theorem claim_C7_counterexample :
    (endRoundOp c7ex 5 [] 0 none).status = "in-progress" ∧
    getRound (endRoundOp c7ex 5 [] 0 none) 5 = some ⟨5, "match", some 0⟩ := by
  decide

/-- C7, corrected.  For a five-round game satisfying the rounds-table
invariant: no operation sequence ever creates a round numbered above 5
(first clause); closing the current 5th round completes the game only when
the round had at least one submission — a zero-submission close leaves the
status unchanged (second clause); a close before the final round never
completes the game (third clause); and starting a round never changes the
status (fourth clause). -/
theorem claim_C7_amended (st : GameState) (ops : List GameOp) (rn : Nat)
    (subs : List (String × String)) (now : Nat) (r : RoundRec) (m : Nat)
    (hinv : RoundsInv st) (h5 : st.roundCount = 5) :
    ((roundNumbers (runOps st ops)).all fun n => decide (n ≤ 5)) = true ∧
    (getRound st rn = some r → st.currentRound = 5 →
      (endRoundOp st rn subs now none).status
        = if subs.isEmpty = true then st.status else "completed") ∧
    (st.currentRound < st.roundCount →
      (endRoundOp st rn subs now none).status = st.status) ∧
    (startRoundOp st m).status = st.status := by
  have hfld : ∀ entries : Scores,
      (entries.foldl (fun s e => saveOneScore s rn e.1 e.2) (setEndTime st rn now)).status
        = st.status ∧
      (entries.foldl (fun s e => saveOneScore s rn e.1 e.2) (setEndTime st rn now)).roundCount
        = st.roundCount ∧
      (entries.foldl (fun s e => saveOneScore s rn e.1 e.2) (setEndTime st rn now)).currentRound
        = st.currentRound := by
    intro entries
    obtain ⟨g1, g2, g3, g4⟩ := saveLoop_fields rn entries (setEndTime st rn now)
    exact ⟨g4, g3, g2⟩
  refine ⟨?_, ?_, ?_, status_startRound st m⟩
  · have main : ∀ ops' st', RoundsInv st' → st'.roundCount = 5 →
        ((roundNumbers (runOps st' ops')).all fun n => decide (n ≤ 5)) = true := by
      intro ops'
      induction ops' with
      | nil =>
        intro st' hi hc
        rw [List.all_eq_true]
        intro n hn
        rw [decide_eq_true_eq]
        have ha := (hi.1 n hn).2
        have hb := hi.2.2
        omega
      | cons op ops2 ih =>
        intro st' hi hc
        show ((roundNumbers (runOps (applyOp st' op) ops2)).all fun n => decide (n ≤ 5)) = true
        apply ih
        · exact roundsInv_applyOp st' op hi
        · rw [roundCount_applyOp st' op]
          exact hc
    exact main ops st hinv h5
  · intro hr h5c
    have hg : getRound (setEndTime st rn now) rn = some { r with endTime := some now } := by
      rw [getRound_setEndTime, hr]
      rfl
    simp only [endRoundOp, hg]
    by_cases hs : subs.isEmpty = true
    · rw [if_pos hs, if_pos hs]
      rfl
    · rw [if_neg hs, if_neg hs]
      by_cases ht : r.rtype = "match"
      · rw [if_pos ht]
        simp only [saveRoundScoresOp]
        split
        · rename_i hflag
          exact absurd hflag (by simp)
        · split
          · rfl
          · rename_i hflag hnle
            exfalso
            apply hnle
            rw [(hfld _).2.1, (hfld _).2.2]
            omega
      · rw [if_neg ht]
        simp only [saveRoundScoresOp]
        split
        · rename_i hflag
          exact absurd hflag (by simp)
        · split
          · rfl
          · rename_i hflag hnle
            exfalso
            apply hnle
            rw [(hfld _).2.1, (hfld _).2.2]
            omega
  · intro hlt
    cases hG : getRound (setEndTime st rn now) rn with
    | none =>
      simp only [endRoundOp, hG]
      rfl
    | some round =>
      simp only [endRoundOp, hG]
      by_cases hs : subs.isEmpty = true
      · rw [if_pos hs]
        rfl
      · rw [if_neg hs]
        by_cases ht : round.rtype = "match"
        · rw [if_pos ht]
          simp only [saveRoundScoresOp]
          split
          · rename_i hflag
            exact absurd hflag (by simp)
          · split
            · rename_i hflag hle
              exfalso
              rw [(hfld _).2.1, (hfld _).2.2] at hle
              omega
            · split
              · exact (hfld _).1
              · exact (hfld _).1
        · rw [if_neg ht]
          simp only [saveRoundScoresOp]
          split
          · rename_i hflag
            exact absurd hflag (by simp)
          · split
            · rename_i hflag hle
              exfalso
              rw [(hfld _).2.1, (hfld _).2.2] at hle
              omega
            · split
              · exact (hfld _).1
              · exact (hfld _).1

/-- Witness for `claim_C7_amended`: the 5-round game `c7ex` (fifth round
open) and a 1-of-5 game, at concrete operations. -/
theorem claim_C7_amended_witness :
    ((roundNumbers (runOps c7ex [GameOp.endR 5 [("p1", "cat")] 0 none])).all
      fun n => decide (n ≤ 5)) = true ∧
    (endRoundOp c7ex 5 [("p1", "cat")] 0 none).status = "completed" ∧
    (endRoundOp { status := "in-progress", currentRound := 1, roundCount := 5, rounds := [⟨1, "match", none⟩], players := [], roundScores := [] } 1 [] 0 none).status
      = "in-progress" ∧
    (startRoundOp c7ex 0).status = "in-progress" :=
  ⟨(claim_C7_amended c7ex [GameOp.endR 5 [("p1", "cat")] 0 none] 5 [("p1", "cat")] 0
      ⟨5, "match", none⟩ 0 roundsInv_c7ex rfl).1,
   (claim_C7_amended c7ex [] 5 [("p1", "cat")] 0 ⟨5, "match", none⟩ 0
      roundsInv_c7ex rfl).2.1 (by decide) rfl,
   (claim_C7_amended { status := "in-progress", currentRound := 1, roundCount := 5, rounds := [⟨1, "match", none⟩], players := [], roundScores := [] } [] 1 [] 0
      ⟨1, "match", none⟩ 0 roundsInv_oneOfFive rfl).2.2.1 (by decide),
   (claim_C7_amended c7ex [] 5 [("p1", "cat")] 0 ⟨5, "match", none⟩ 0
      roundsInv_c7ex rfl).2.2.2⟩

end CardsMatch
